import Mathlib

/-!
Verification development for the request-dispatch core of the Spiceflow
HTTP framework (`src/spiceflow.ts`).  The definitions below are a shallow
embedding of the source: paths are lists of characters, JS values are an
inductive `JVal`, responses are a `Resp` structure, the middleware chain is
interpreted by a fuelled state machine that mirrors the closure-based
`next()` of `Spiceflow.handle`, and the application tree with its
breadth-first traversal, prefix matching, scope computation and HEAD/404
synthesis follows `bfs`, `bfsFind`, `match`, `getAppAndParents` and
`getAppsInScope` line by line.  External collaborators (the medley path
matcher, the superjson codec, lodash's deep clone, URLSearchParams) are
modelled from their documented contracts where noted.
-/

namespace Spiceflow

/-- Paths are JS strings used character-wise; modelled as lists of chars. -/
abbrev Str := List Char

/-- The source's `path.replace(/\/$/, "")`: remove one trailing slash. -/
def stripTrailingSlash (s : Str) : Str :=
  if s.getLast? = some '/' then s.dropLast else s

/-- The source's `path.replace(/\/$/, "") || "/"` normalization used by
`add` and `match`: strip one trailing slash, defaulting to "/". -/
def normPath (s : Str) : Str :=
  let s' := stripTrailingSlash s
  if s' = [] then ['/'] else s'

/-- A JavaScript runtime value as far as the dispatch core inspects it:
primitives, arrays, objects, and `URLSearchParams` instances (checked by
`turnHandlerResultIntoResponse` for `application/x-www-form-urlencoded`
routes). -/
inductive JVal where
  | undef
  | null
  | bool (b : Bool)
  | num (n : Int)
  | str (s : String)
  | arr (xs : List JVal)
  | obj (fields : List (String × JVal))
  | urlParams (ps : List (String × String))

/-- JS truthiness of a `JVal` (`undefined`, `null`, `false`, `0`, `""` are
falsy; every object — including `URLSearchParams` — is truthy). -/
def JVal.truthy : JVal → Bool
  | .undef => false
  | .null => false
  | .bool b => b
  | .num n => n != 0
  | .str s => s ≠ ""
  | .arr _ => true
  | .obj _ => true
  | .urlParams _ => true

/-- Whether a stream chunk is `undefined` or `null` (skipped by the
stream loop, and by the first-value check in `handleStream`). -/
def JVal.isNullish : JVal → Bool
  | .undef => true
  | .null => true
  | _ => false

/-- Body of a `Response`: a text body, an empty (`null`) body, or a
`ReadableStream` modelled by the list of chunks it enqueues in the
abort-free execution. -/
inductive RBody where
  | text (s : String)
  | empty
  | stream (chunks : List String)
deriving DecidableEq

/-- A fetch-API `Response` as far as the core reads or builds one:
status, statusText, headers and body. -/
structure Resp where
  status : Nat := 200
  statusText : String := ""
  headers : List (String × String) := []
  body : RBody := .empty
deriving DecidableEq

/-- A thrown error value's own enumerable fields plus its message, as
consumed by `getResForError` (`{...err, message: err?.message || ...}`).
`ValidationError` carries `code` and `status` as own enumerable fields;
a plain `Error` has neither, and `message` is non-enumerable (added
explicitly, hence last in the serialized body). -/
structure ErrData where
  code : Option String := none
  status : Option Nat := none
  message : String := ""
deriving DecidableEq

/-- A thrown JS value as the catch in `next()` distinguishes it:
either a `Response` (used directly) or an error object. -/
inductive Err where
  | resp (r : Resp)
  | exn (e : ErrData)
deriving DecidableEq

/-- Minimal JSON string escaping used by the serialization model. -/
def jsonEscapeChar (c : Char) : String :=
  if c = '"' then "\\\""
  else if c = '\\' then "\\\\"
  else if c = '\n' then "\\n"
  else String.singleton c

/-- Escape a string for inclusion in a JSON literal. -/
def jsonEscape (s : String) : String :=
  String.join (s.data.map jsonEscapeChar)

mutual
/-- Modelled from the spec: `superjsonSerialize` (defined in the
repository's `serialize.ts`, which is not under `src/`) is the
extended-JSON codec "that can additionally round-trip dates, maps, sets,
and big integers"; on the plain values the claims exercise it coincides
with `JSON.stringify`, which this printer implements. -/
def serializeJ : JVal → String
  | .undef => "null"
  | .null => "null"
  | .bool b => if b then "true" else "false"
  | .num n => toString n
  | .str s => "\"" ++ jsonEscape s ++ "\""
  | .arr xs => "[" ++ serializeList xs ++ "]"
  | .obj fs => "\x7b" ++ serializeFields fs ++ "\x7d"
  | .urlParams ps => "\x7b" ++ String.intercalate "," (ps.map (fun p => "\"" ++ jsonEscape p.1 ++ "\":\"" ++ jsonEscape p.2 ++ "\"")) ++ "\x7d"

/-- Comma-joined serialization of a JSON array's elements. -/
def serializeList : List JVal → String
  | [] => ""
  | [x] => serializeJ x
  | x :: y :: xs => serializeJ x ++ "," ++ serializeList (y :: xs)

/-- Comma-joined serialization of a JSON object's fields. -/
def serializeFields : List (String × JVal) → String
  | [] => ""
  | [(k, v)] => "\"" ++ jsonEscape k ++ "\":" ++ serializeJ v
  | (k, v) :: f :: fs =>
      "\"" ++ jsonEscape k ++ "\":" ++ serializeJ v ++ "," ++ serializeFields (f :: fs)
end

/-- The own enumerable fields of `{...err, message: err?.message || "Internal Server Error"}`
in the order JS spreads them: `code`, `status`, then the explicitly added
`message` (an `Error`'s own `message` is non-enumerable, so it is not
produced by the spread and lands last). -/
def errFields (e : ErrData) : List (String × JVal) :=
  (match e.code with | some c => [("code", JVal.str c)] | none => []) ++
  (match e.status with | some s => [("status", JVal.num s)] | none => []) ++
  [("message", JVal.str (if e.message = "" then "Internal Server Error" else e.message))]

/-- Serialized default error body produced by `getResForError`. -/
def serializeErrBody (e : ErrData) : String :=
  serializeJ (.obj (errFields e))

/-- One field-level issue reported by a standard-schema validator. -/
structure Issue where
  path : List String := []
  message : String := ""
deriving DecidableEq

/-- A standard-schema validation result: a (possibly absent) issues list
and a (possibly absent) transformed value, mirroring
`{issues} | {value}`. -/
structure VResult where
  issues : List Issue := []
  value : Option JVal := none

/-- A validate function as stored on a route (`ValidationFunction`). -/
abbrev Validator := JVal → VResult

/-- Render one issue as `runValidation` does:
`path.join(".") + ": "` (when the path is non-empty) plus the message. -/
def renderIssue (i : Issue) : String :=
  (if i.path ≠ [] then String.intercalate "." i.path ++ ": " else "") ++ i.message

/-- Render an issues list as `runValidation` does: the rendered issues
joined with the source's separator `.join("\\n")` — the two-character
sequence backslash-n, not a newline. -/
def renderIssues (l : List Issue) : String :=
  String.intercalate "\\n" (l.map renderIssue)

/-- Modelled from the spec: `ValidationError` (defined in the repository's
`error.ts`, which is not under `src/`) carries own enumerable fields
`code = "VALIDATION"` and `status = 422`, so that the default error body
is `{"code":"VALIDATION","status":422,"message":...}` as the spec and the
repository's tests state. -/
def validationError (msg : String) : ErrData :=
  { code := some "VALIDATION", status := some 422, message := msg }

/-- The source's `runValidation`: no validator passes the value through;
otherwise non-empty issues throw a `ValidationError` built from the
rendered issues (falling back to "Validation failed" when the rendering
is empty), and a present `value` field replaces the input. -/
def runValidation (value : JVal) (v? : Option Validator) : Except Err JVal :=
  match v? with
  | none => .ok value
  | some validate =>
      let r := validate value
      if r.issues ≠ [] then
        let s := renderIssues r.issues
        .error (.exn (validationError (if s = "" then "Validation failed" else s)))
      else
        match r.value with
        | some v => .ok v
        | none => .ok value

/-- A handler (or truthy middleware) result before conversion:
either an already-constructed `Response` or a plain truthy JS value. -/
inductive HRes where
  | resp (r : Resp)
  | val (v : JVal)

/-- Truthiness of a handler/middleware return value: a `Response` object is
always truthy, otherwise JS truthiness of the value. -/
def HRes.truthy : HRes → Bool
  | .resp _ => true
  | .val v => v.truthy

/-- The source's `route.type?.includes(t)` check. -/
def typeIncludes (routeType t : String) : Bool :=
  decide (t.data <:+: routeType.data)

/-- URLSearchParams serialization used when a handler returns URL-encoded
parameters (`new Response(result)` with a `URLSearchParams` body). -/
def encodeUrlParams (ps : List (String × String)) : String :=
  String.intercalate "&" (ps.map (fun p => p.1 ++ "=" ++ p.2))

/-- Rough JS type name used in the conversion error messages
(`result?.constructor?.name || typeof result`). -/
def jsTypeName : JVal → String
  | .undef => "undefined"
  | .null => "object"
  | .bool _ => "boolean"
  | .num _ => "number"
  | .str _ => "String"
  | .arr _ => "Array"
  | .obj _ => "Object"
  | .urlParams _ => "URLSearchParams"

/-- The source's `turnHandlerResultIntoResponse`: responses pass through;
a declared `multipart/form-data` type rejects non-responses; a declared
`application/x-www-form-urlencoded` type requires `URLSearchParams`; a
declared `text/plain` type requires a string; anything else is serialized
as JSON. Throws (as `Except.error`) exactly where the source throws. -/
def turnHandlerResultIntoResponse (result : HRes) (routeType : String) (routePath : Str) :
    Except Err Resp :=
  match result with
  | .resp r => .ok r
  | .val v =>
      if routeType ≠ "" then
        if typeIncludes routeType "multipart/form-data" then
          .error (.exn { message :=
            "Invalid form data returned from route handler " ++ String.mk routePath ++
            " - expected Response but got " ++ jsTypeName v ++
            ". FormData cannot be returned directly - it must be wrapped in a Response object with the appropriate content-type header." })
        else if typeIncludes routeType "application/x-www-form-urlencoded" then
          match v with
          | .urlParams ps =>
              .ok { headers := [("content-type", "application/x-www-form-urlencoded")],
                    body := .text (encodeUrlParams ps) }
          | _ => .error (.exn { message :=
              "Invalid URL encoded data returned from route handler " ++ String.mk routePath ++
              " - expected URLSearchParams but got " ++ jsTypeName v })
        else if typeIncludes routeType "text/plain" then
          match v with
          | .str s => .ok { headers := [("content-type", "text/plain")], body := .text s }
          | _ => .error (.exn { message :=
              "Invalid text returned from route handler " ++ String.mk routePath ++
              " - expected string but got " ++ jsTypeName v })
        else
          .ok { headers := [("content-type", "application/json")], body := .text (serializeJ v) }
      else
        .ok { headers := [("content-type", "application/json")], body := .text (serializeJ v) }

/-- A finite, non-throwing generator as `handleStream` consumes it:
the values it yields in order, then the value of its finishing return.
`next()` pulls the head of `yields`; once `yields` is exhausted the pull
reports `done` with `ret`. -/
structure Gen where
  yields : List JVal
  ret : JVal

/-- What an error handler registered via `onError` returns: a synchronous
`Response` (the only thing `isResponse` accepts), a promise of a response
(truthy but not a response, so skipped without being awaited), or any
other value. -/
inductive ErrHRet where
  | resp (r : Resp)
  | promise (r : Resp)
  | other

/-- An `onError` handler, receiving the thrown error object. -/
abbrev ErrH := ErrData → ErrHRet

/-- The event frame for one stream message. -/
def messageFrame (v : JVal) : String :=
  "event: message\ndata: " ++ serializeJ v ++ "\n\n"

/-- Ghost log of observable invocations during one `handle()` call:
middleware invocations (by chain index), the terminal route handler,
error-handler invocations (by position in the flattened list), and the
`console.error` fallback. -/
inductive Ev where
  | mw (i : Nat)
  | handler
  | errH (i : Nat)
  | consoleErr
deriving DecidableEq

/-- Whether an event is a middleware or terminal-handler invocation. -/
def evIsMwH : Ev → Bool
  | .mw _ => true
  | .handler => true
  | _ => false

/-- Loop body of `runErrorHandlers`: call each handler in order with the
error; the first handler whose immediate (un-awaited) return value passes
`isResponse` stops the loop. A promise-valued return is not a `Response`
and is skipped. Each invocation is recorded in the ghost log. -/
def runErrorHandlersAux (e : ErrData) : List ErrH → Nat → List Ev → List Ev × Option Resp
  | [], _, log => (log, none)
  | h :: rest, i, log =>
      let log := log ++ [Ev.errH i]
      match h e with
      | .resp r => (log, some r)
      | _ => runErrorHandlersAux e rest (i + 1) log

/-- The source's `runErrorHandlers`: with no handlers registered it logs
the unhandled error to the console and returns nothing; otherwise it runs
the loop (and never touches the console). -/
def runErrorHandlers (e : ErrData) (hs : List ErrH) (log : List Ev) : List Ev × Option Resp :=
  if hs.isEmpty then (log ++ [Ev.consoleErr], none)
  else runErrorHandlersAux e hs 0 log

/-- The default serialized-error response built by `getResForError` when no
error handler produced a response: status from the error's own `status`
field or 500, JSON content type, spread-plus-message body. -/
def defaultErrResp (e : ErrData) : Resp :=
  { status := e.status.getD 500,
    headers := [("content-type", "application/json")],
    body := .text (serializeErrBody e) }

/-- The source's `getResForError`: a thrown `Response` is used directly;
otherwise the error handlers run, and the first synchronous `Response`
wins; otherwise the default serialized-error response. -/
def getResForError (errHs : List ErrH) (e : Err) (log : List Ev) : List Ev × Resp :=
  match e with
  | .resp r => (log, r)
  | .exn ed =>
      match runErrorHandlers ed errHs log with
      | (log, some r) => (log, r)
      | (log, none) => (log, defaultErrResp ed)

/-- The source's `handleStream` restricted to non-throwing producers, in
the abort-free execution (keep-alive pings and abort listeners are
real-time behavior outside this embedding). The first value is pulled
eagerly; if the producer is already done, a single immediate text
response carries the one message plus the `done` sentinel and no chunked
transport is used. Otherwise a chunked `ReadableStream` response carries
one `message` frame per non-nullish value. -/
def handleStream (g : Gen) (_errHs : List ErrH) : Resp :=
  match g.yields with
  | [] =>
      { status := 200,
        headers := [("Content-Type", "text/event-stream"), ("Cache-Control", "no-cache")],
        body := .text (messageFrame g.ret ++ "event: done\n\n") }
  | v0 :: rest =>
      { status := 200,
        headers := [("transfer-encoding", "chunked"),
                    ("content-type", "text/event-stream; charset=utf-8")],
        body := .stream
          ((if v0.isNullish then [] else [messageFrame v0]) ++
            rest.filterMap (fun c => if c.isNullish then none else some (messageFrame c))) }

/-- A middleware's interaction with the chain, deep-embedded: it either
finishes (returning a value or throwing), or awaits `next()` and
continues as a function of the response `next()` resolved to.  This is
the space of behaviors a `(context, next)` middleware can exhibit
through the chain interface. -/
inductive MwProg where
  | done (r : Except Err HRes)
  | callNext (k : Resp → MwProg)

/-- The per-request context handed to middlewares and handlers.  Mutation
of `query`/`params` by validation is threaded through the chain state;
`jsonBody` models `request.json()` on the validating request wrapper
(`SpiceflowRequest`): it throws the `ValidationError` when a body schema
is present and fails. -/
structure Ctx where
  method : String := "GET"
  path : Str := []
  stateV : JVal := .obj []
  query : JVal := .obj []
  params : JVal := .obj []
  jsonBody : Except Err JVal := Except.ok JVal.undef

/-- A middleware: its behavior may depend on the context it receives. -/
abbrev Mw := Ctx → MwProg

/-- What a route handler invocation produces: a plain value, a
`Response`, an async-iterable producer (routed to `handleStream`), or a
throw. -/
inductive HandlerOut where
  | val (v : JVal)
  | resp (r : Resp)
  | stream (g : Gen)
  | throw (e : Err)

/-- A route handler. -/
abbrev Handler := Ctx → HandlerOut

/-- An `InternalRoute`: method, normalized path, declared content type
(`hooks.type || ""`), handler, and the derived validators. -/
structure Route where
  method : String
  path : Str
  rtype : String := ""
  handler : Handler
  validateBody : Option Validator := none
  validateQuery : Option Validator := none
  validateParams : Option Validator := none

/-- An application node: id, basePath (`prefix`), `scoped` option
(`undefined` when not passed to the constructor — only `scoped === false`
is ever treated specially), middlewares, error handlers, routes,
default state and children. -/
inductive AppT where
  | node (aid : Nat) (pre : Str) (scopedQ : Option Bool)
      (mws : List Mw) (errHs : List ErrH) (routes : List Route)
      (defaultState : JVal) (children : List AppT)

/-- The node's id (`globalIndex++` at construction; globally unique). -/
def AppT.aid : AppT → Nat
  | .node a _ _ _ _ _ _ _ => a

/-- The node's basePath. -/
def AppT.pre : AppT → Str
  | .node _ p _ _ _ _ _ _ => p

/-- The node's `scoped` option (named `scopedQ` because `scoped` is a Lean keyword). -/
def AppT.scopedQ : AppT → Option Bool
  | .node _ _ s _ _ _ _ _ => s

/-- The node's registered middlewares, in registration order. -/
def AppT.mws : AppT → List Mw
  | .node _ _ _ m _ _ _ _ => m

/-- The node's registered error handlers, in registration order. -/
def AppT.errHs : AppT → List ErrH
  | .node _ _ _ _ e _ _ _ => e

/-- The node's registered routes, in registration order. -/
def AppT.routes : AppT → List Route
  | .node _ _ _ _ _ r _ _ => r

/-- The node's default state. -/
def AppT.defaultState : AppT → JVal
  | .node _ _ _ _ _ _ d _ => d

/-- The node's mounted children (`childrenApps`). -/
def AppT.children : AppT → List AppT
  | .node _ _ _ _ _ _ _ c => c

mutual
/-- Size of a tree node (for traversal termination). -/
def AppT.sz : AppT → Nat
  | .node _ _ _ _ _ _ _ cs => 1 + szList cs
/-- Total size of a list of trees. -/
def szList : List AppT → Nat
  | [] => 0
  | a :: l => AppT.sz a + szList l
end

theorem szList_append (l1 l2 : List AppT) : szList (l1 ++ l2) = szList l1 + szList l2 := by
  induction l1 with
  | nil => simp [szList]
  | cons a l ih => simp [szList, ih]; omega

theorem sz_pos (a : AppT) : 0 < a.sz := by
  cases a with
  | node _ _ _ _ _ _ _ cs => simp [AppT.sz]

theorem szList_children (a : AppT) : szList a.children < a.sz := by
  cases a with
  | node _ _ _ _ _ _ _ cs => simp [AppT.sz, AppT.children]

/-- Queue worker of the source's `bfs`: visit the head, push its
children at the back. -/
def bfsAux : List AppT → List AppT
  | [] => []
  | a :: rest => a :: bfsAux (rest ++ a.children)
termination_by q => szList q
decreasing_by
  have h := szList_children a
  simp [szList, szList_append]
  omega

/-- Fuel-driven version of `bfsAux` (structurally recursive, hence
kernel-computable); at fuel at least the total size of the queue it
coincides with `bfsAux`. -/
def bfsAuxF : Nat → List AppT → List AppT
  | _, [] => []
  | 0, _ :: _ => []
  | fuel + 1, a :: rest => a :: bfsAuxF fuel (rest ++ a.children)

theorem bfsAuxF_eq : ∀ (fuel : Nat) (q : List AppT), szList q ≤ fuel →
    bfsAuxF fuel q = bfsAux q := by
  intro fuel
  induction fuel with
  | zero =>
      intro q hq
      cases q with
      | nil => simp [bfsAuxF, bfsAux]
      | cons a rest =>
          have := sz_pos a
          simp [szList] at hq
          omega
  | succ f ih =>
      intro q hq
      cases q with
      | nil => simp [bfsAuxF, bfsAux]
      | cons a rest =>
          rw [bfsAuxF, bfsAux, ih]
          have h1 := szList_children a
          rw [szList_append]
          simp [szList] at hq
          omega

/-- The source's `bfs`: level-order traversal of the application tree
(driven by the size fuel so that it computes by structural recursion). -/
def bfs (t : AppT) : List AppT := bfsAuxF (AppT.sz t) [t]

theorem bfs_eq (t : AppT) : bfs t = bfsAux [t] := by
  unfold bfs
  exact bfsAuxF_eq (AppT.sz t) [t] (by simp [szList])

/-- The child-id → parent pairs inserted into the one-shot parent `Map`
by `getAppAndParents` (one `set` per child of each breadth-first-visited
node, in visit order). -/
def parentPairs (root : AppT) : List (Nat × AppT) :=
  ((bfs root).map (fun p => p.children.map (fun c => (c.aid, p)))).flatten

/-- JS `Map.get` over the insertion sequence: the last `set` for a key
wins. -/
def pmGet (pairs : List (Nat × AppT)) (k : Nat) : Option AppT :=
  (pairs.reverse.find? (fun pr => pr.1 == k)).map Prod.snd

/-- The upward walk of `getAppAndParents`
(`while (current) { parents.unshift(current); current = parentMap.get(current.id) }`),
fuelled by the tree's node count (the loop cannot run longer on a
well-formed tree). -/
def walkUpAux (pm : List (Nat × AppT)) : Nat → AppT → List AppT
  | 0, cur => [cur]
  | fuel + 1, cur =>
      match pmGet pm cur.aid with
      | none => [cur]
      | some p => walkUpAux pm fuel p ++ [cur]

/-- The source's `getAppAndParents`: `[root]` when the root has no
children, otherwise the parent-map walk from `current` up to the root,
returned root-first. -/
def getAppAndParents (root current : AppT) : List AppT :=
  if root.children.isEmpty then [root]
  else walkUpAux (parentPairs root) (bfs root).length current

/-- Reference equality of nodes drawn from one tree, modelled as id
equality (ids are globally unique `globalIndex++` values). -/
def memById (l : List AppT) (a : AppT) : Bool :=
  l.any (fun y => y.aid == a.aid)

/-- The source's `getAppsInScope`: the breadth-first order filtered to
nodes that are `scoped === false` anywhere in the tree or lie on the
matched node's ancestor chain. -/
def getAppsInScope (root current : AppT) : List AppT :=
  if root.children.isEmpty then [root]
  else
    let withParents := getAppAndParents root current
    let wantedOrder := bfs root
    let scopeFalseApps := wantedOrder.filter (fun x => x.scopedQ == some false)
    wantedOrder.filter (fun app => memById scopeFalseApps app || memById withParents app)

/-- Model of the external `@medley/router` PathMatcher restricted to the
static routes used here: `find` matches the exact registered path (the
query string from the first `?` on is not part of the path), returning
the handler store for that path, or nothing iff no route was ever
registered there (`register` is always immediately followed by a
`store[method]` assignment in `add`). -/
def routerFind (routes : List Route) (p : Str) : Option (List Route) :=
  let pc := p.takeWhile (fun c => c ≠ '?')
  let store := routes.filter (fun r => r.path == pc)
  if store.isEmpty then none else some store

/-- `store[method]`: later `add` calls overwrite earlier ones for the
same path and method, so the last registration wins. -/
def storeGet (store : List Route) (m : String) : Option Route :=
  (store.filter (fun r => r.method == m)).getLast?

/-- The source's `notFoundHandler`: unconditionally a 404 "Not Found"
response. -/
def notFoundHandler : Handler :=
  fun _ => .resp { status := 404, body := .text "Not Found" }

/-- The HEAD-fallback wrapper handler synthesized by `match`: run the GET
route's handler; if it produced a `Response`, keep status/statusText/
headers with an emptied body; otherwise a bare empty 200. -/
def headWrapHandler (getRoute : Route) : Handler := fun c =>
  match getRoute.handler c with
  | .resp r =>
      .resp { status := r.status, statusText := r.statusText, headers := r.headers,
              body := .text "" }
  | .throw e => .throw e
  | _ => .resp { status := 200, body := .empty }

/-- Join of the ancestor chain's prefixes (`.map(x => x.prefix).flatten("")`,
with an absent prefix contributing the empty string). -/
def joinPre (l : List AppT) : Str := (l.map AppT.pre).flatten

/-- A `match` result: owning app, resolved (possibly synthesized) route,
extracted params. -/
structure Matched where
  app : AppT
  internalRoute : Route
  params : JVal

/-- The absolute prefix of a node inside `match`: the concatenation of
its and its ancestors' prefixes, with one trailing slash stripped. -/
def nodePre (root a : AppT) : Str :=
  stripTrailingSlash (joinPre (getAppAndParents root a))

/-- The source's `pathWithoutPrefix`: when the prefix is non-empty (and,
at the call site, is a prefix of the path), `path.replace(prefix, "")`
removes the leading prefix, defaulting to "/". -/
def nodeSubPath (pre path : Str) : Str :=
  if pre ≠ [] then (if path.drop pre.length = [] then ['/'] else path.drop pre.length)
  else path

/-- The breadth-first search inside the source's `match`, with the
`foundApp` fallback accumulator threaded through the closure: skip nodes
whose absolute prefix does not prefix the path; remember nodes whose
matcher has no entry at all; return the first method match, falling back
to the GET route wrapped for HEAD; after exhausting the tree, synthesize
the 404 route on the closest remembered app (or the root). -/
def matchGo (root : AppT) (method : String) (path : Str) :
    List AppT → Option AppT → Matched
  | [], foundApp =>
      { app := foundApp.getD root,
        internalRoute := { method := method, path := path, handler := notFoundHandler },
        params := .obj [] }
  | a :: rest, foundApp =>
      if nodePre root a ≠ [] ∧ ¬ (nodePre root a <+: path) then
        matchGo root method path (rest ++ a.children) foundApp
      else
        match routerFind a.routes (nodeSubPath (nodePre root a) path) with
        | none => matchGo root method path (rest ++ a.children) (some a)
        | some store =>
            match storeGet store method with
            | some r => { app := a, internalRoute := r, params := .obj [] }
            | none =>
                if method == "HEAD" then
                  match storeGet store "GET" with
                  | some g =>
                      { app := a,
                        internalRoute :=
                          { method := method, path := path, handler := headWrapHandler g },
                        params := .obj [] }
                  | none => matchGo root method path (rest ++ a.children) foundApp
                else matchGo root method path (rest ++ a.children) foundApp
termination_by q _ => szList q
decreasing_by
  all_goals
    have h := szList_children a
    simp [szList, szList_append]
    omega

/-- Fuel-driven version of `matchGo` (structurally recursive, hence
kernel-computable); at fuel at least the total size of the queue it
coincides with `matchGo`. -/
def matchGoF (root : AppT) (method : String) (path : Str) :
    Nat → List AppT → Option AppT → Matched
  | _, [], foundApp =>
      { app := foundApp.getD root,
        internalRoute := { method := method, path := path, handler := notFoundHandler },
        params := .obj [] }
  | 0, _ :: _, foundApp =>
      { app := foundApp.getD root,
        internalRoute := { method := method, path := path, handler := notFoundHandler },
        params := .obj [] }
  | fuel + 1, a :: rest, foundApp =>
      if nodePre root a ≠ [] ∧ ¬ (nodePre root a <+: path) then
        matchGoF root method path fuel (rest ++ a.children) foundApp
      else
        match routerFind a.routes (nodeSubPath (nodePre root a) path) with
        | none => matchGoF root method path fuel (rest ++ a.children) (some a)
        | some store =>
            match storeGet store method with
            | some r => { app := a, internalRoute := r, params := .obj [] }
            | none =>
                if method == "HEAD" then
                  match storeGet store "GET" with
                  | some g =>
                      { app := a,
                        internalRoute :=
                          { method := method, path := path, handler := headWrapHandler g },
                        params := .obj [] }
                  | none => matchGoF root method path fuel (rest ++ a.children) foundApp
                else matchGoF root method path fuel (rest ++ a.children) foundApp

theorem matchGoF_eq (root : AppT) (method : String) (path : Str) :
    ∀ (fuel : Nat) (q : List AppT) (foundApp : Option AppT), szList q ≤ fuel →
      matchGoF root method path fuel q foundApp = matchGo root method path q foundApp := by
  intro fuel
  induction fuel with
  | zero =>
      intro q foundApp hq
      cases q with
      | nil => simp [matchGoF, matchGo]
      | cons a rest =>
          have := sz_pos a
          simp [szList] at hq
          omega
  | succ f ih =>
      intro q foundApp hq
      cases q with
      | nil => simp [matchGoF, matchGo]
      | cons a rest =>
          have h1 := szList_children a
          have h2 : szList (rest ++ a.children) ≤ f := by
            rw [szList_append]
            simp [szList] at hq
            omega
          rw [matchGoF, matchGo]
          simp only [ih _ _ h2]

/-- The source's `Spiceflow.match` (named `matchRoute` here since `match`
is a Lean keyword): normalize the request path, then search the tree
breadth-first (driven by the size fuel so that it computes by structural
recursion). -/
def matchRoute (root : AppT) (method : String) (path : Str) : Matched :=
  matchGoF root method (normPath path) (AppT.sz root) [root] none

theorem matchRoute_eq (root : AppT) (method : String) (path : Str) :
    matchRoute root method path = matchGo root method (normPath path) [root] none := by
  unfold matchRoute
  exact matchGoF_eq root method (normPath path) (AppT.sz root) [root] none (by simp [szList])

/-- The flattened configuration of one `handle()` call: middlewares and
error handlers of the apps in scope (tree order, registration order
within an app), the matched route, and the base request context. -/
structure ChainCfg where
  mws : List Mw
  errHs : List ErrH
  route : Route
  baseCtx : Ctx

/-- The mutable chain state closed over by `next()`: the shared `index`,
the shared `handlerResponse` slot, the context's `query`/`params`
(reassigned by validation), and the ghost invocation log. -/
structure ChainSt where
  index : Nat := 0
  handlerResponse : Option Resp := none
  query : JVal := .obj []
  params : JVal := .obj []
  log : List Ev := []

/-- The context as seen at a given chain state. -/
def ctxAt (cfg : ChainCfg) (st : ChainSt) : Ctx :=
  { cfg.baseCtx with query := st.query, params := st.params }

/-- The catch clause of `next()` up to its recursive resumption:
`handlerResponse = await getResForError(err)` (with the ghost log of
error-handler and console invocations threaded through). -/
def getResStep (cfg : ChainCfg) (e : Err) (st : ChainSt) : ChainSt :=
  let p := getResForError cfg.errHs e st.log
  { st with log := p.1, handlerResponse := some p.2 }

/-- Result of the non-middleware tail of `next()`: either a response, or
a thrown error to be routed through the enclosing catch. -/
inductive TailOut where
  | done (st : ChainSt) (r : Resp)
  | caught (st : ChainSt) (e : Err)

/-- The tail of `next()` past the middleware block: return the stored
`handlerResponse` if any; otherwise validate `query` and `params`,
invoke the route handler, stream results going to `handleStream`, and
everything else through `turnHandlerResultIntoResponse`; any throw is
reported for the enclosing catch. -/
def tailStep (cfg : ChainCfg) (st : ChainSt) : TailOut :=
  match st.handlerResponse with
  | some r => .done st r
  | none =>
      match runValidation st.query cfg.route.validateQuery with
      | .error e => .caught st e
      | .ok q =>
          match runValidation st.params cfg.route.validateParams with
          | .error e => .caught { st with query := q } e
          | .ok ps =>
              match cfg.route.handler (ctxAt cfg { st with query := q, params := ps, log := st.log ++ [Ev.handler] }) with
              | .throw e =>
                  .caught { st with query := q, params := ps, log := st.log ++ [Ev.handler] } e
              | .stream g =>
                  .done { st with query := q, params := ps, log := st.log ++ [Ev.handler], handlerResponse := some (handleStream g cfg.errHs) }
                    (handleStream g cfg.errHs)
              | .val v =>
                  match turnHandlerResultIntoResponse (.val v) cfg.route.rtype cfg.route.path with
                  | .ok r =>
                      .done { st with query := q, params := ps, log := st.log ++ [Ev.handler], handlerResponse := some r } r
                  | .error e =>
                      .caught { st with query := q, params := ps, log := st.log ++ [Ev.handler] } e
              | .resp r0 =>
                  match turnHandlerResultIntoResponse (.resp r0) cfg.route.rtype cfg.route.path with
                  | .ok r =>
                      .done { st with query := q, params := ps, log := st.log ++ [Ev.handler], handlerResponse := some r } r
                  | .error e =>
                      .caught { st with query := q, params := ps, log := st.log ++ [Ev.handler] } e

/-- `index++` and the invocation of `middlewares[index]`, recorded in the
ghost log. -/
def mwEntrySt (st : ChainSt) : ChainSt :=
  { st with index := st.index + 1, log := st.log ++ [Ev.mw st.index] }

/-- `if (isResponse(result)) handlerResponse = result`. -/
def applyStore (st : ChainSt) (res : HRes) : ChainSt :=
  match res with
  | .resp r => { st with handlerResponse := some r }
  | .val _ => st

mutual
/-- The source's `next()` closure as a fuelled interpreter (`none` means
out of fuel, never reached at adequate fuel).  While `index` is below
the middleware count: take the middleware at `index`, increment, invoke
it; store a `Response` result in `handlerResponse`; on a falsy result
with middlewares remaining, continue automatically; on a truthy result,
convert it to a response and return; otherwise fall through to the tail.
Any throw is caught, resolved via `getResForError`, stored in
`handlerResponse`, and the same chain is resumed. -/
def nextFn (cfg : ChainCfg) : Nat → ChainSt → Option (ChainSt × Resp)
  | 0, _ => none
  | fuel + 1, st =>
      if h : st.index < cfg.mws.length then
        match interpMw cfg fuel (cfg.mws.get ⟨st.index, h⟩ (ctxAt cfg (mwEntrySt st))) (mwEntrySt st) with
        | none => none
        | some (st2, .error e) => nextFn cfg fuel (getResStep cfg e st2)
        | some (st2, .ok res) =>
            if res.truthy = false ∧ (applyStore st2 res).index < cfg.mws.length then
              nextFn cfg fuel (applyStore st2 res)
            else if res.truthy then
              match turnHandlerResultIntoResponse res cfg.route.rtype cfg.route.path with
              | .ok r => some (applyStore st2 res, r)
              | .error e => nextFn cfg fuel (getResStep cfg e (applyStore st2 res))
            else
              match tailStep cfg (applyStore st2 res) with
              | .done st4 r => some (st4, r)
              | .caught st4 e => nextFn cfg fuel (getResStep cfg e st4)
      else
        match tailStep cfg st with
        | .done st4 r => some (st4, r)
        | .caught st4 e => nextFn cfg fuel (getResStep cfg e st4)
termination_by structural fuel => fuel

/-- Run a middleware program against the chain: a finished program
reports its return or throw; `callNext` runs `next()` and continues with
the response it resolved to. -/
def interpMw (cfg : ChainCfg) : Nat → MwProg → ChainSt → Option (ChainSt × Except Err HRes)
  | _, .done r, st => some (st, r)
  | 0, .callNext _, _ => none
  | fuel + 1, .callNext k, st =>
      match nextFn cfg fuel st with
      | none => none
      | some (st', r) => interpMw cfg fuel (k r) st'
termination_by structural fuel _ => fuel
end

/-- Split a character list on a separator. -/
def splitOnChar (c : Char) (s : Str) : List Str :=
  s.splitOn c

/-- Model of the source's `parseQuery` over the external
`URLSearchParams` iteration (percent-decoding omitted): split the query
string on `&`, take `key=value` (value empty when no `=`), and collect
repeated keys into arrays exactly as the source's loop does. -/
def upsertQueryPair : List (String × JVal) → String → String → List (String × JVal)
  | [], k, v => [(k, .str v)]
  | (k', x) :: rest, k, v =>
      if k' = k then
        match x with
        | .arr l => (k', .arr (l ++ [.str v])) :: rest
        | _ => (k', .arr [x, .str v]) :: rest
      else (k', x) :: upsertQueryPair rest k v

/-- Parse a raw query string (without the leading `?`) into the
`query` object. -/
def parseQuery (qs : Str) : JVal :=
  let segs := (splitOnChar '&' qs).filter (fun s => s ≠ [])
  let pairs := segs.map (fun seg =>
    (String.mk (seg.takeWhile (fun c => c ≠ '=')),
     String.mk ((seg.dropWhile (fun c => c ≠ '=')).drop 1)))
  .obj (pairs.foldl (fun acc kv => upsertQueryPair acc kv.1 kv.2) [])

/-- An incoming request as `handle` reads it: method, URL pathname,
URL search (with its leading `?` when non-empty), and the parsed JSON
body (consumed only through the validating `json()` wrapper). -/
structure Req where
  method : String := "GET"
  pathname : Str := ['/']
  search : Str := []
  body : JVal := JVal.undef

/-- The source's `const path = u.pathname + u.search`. -/
def Req.pathFull (r : Req) : Str := r.pathname ++ r.search

/-- The setup phase of `handle()`: match the route, compute the apps in
scope, flatten their middlewares and error handlers in that order, build
the per-request state (`options.state` override, else the deep clone of
the matched app's defaultState — value-preserving here; its aliasing
behavior is modelled by the heap development below), wrap the request
for body validation, and build the context. -/
def handleCfg (root : AppT) (req : Req) (customState : Option JVal) : ChainCfg × Matched :=
  let path := req.pathFull
  let m := matchRoute root req.method path
  let appsInScope := getAppsInScope root m.app
  let errHs := (appsInScope.map AppT.errHs).flatten
  let mws := (appsInScope.map AppT.mws).flatten
  let state :=
    match customState with
    | some s => if s.truthy then s else m.app.defaultState
    | none => m.app.defaultState
  let jsonBody := runValidation req.body m.internalRoute.validateBody
  let ctx : Ctx :=
    { method := req.method, path := path, stateV := state,
      query := parseQuery (req.search.drop 1), params := m.params,
      jsonBody := jsonBody }
  ({ mws := mws, errHs := errHs, route := m.internalRoute, baseCtx := ctx }, m)

/-- The initial chain state of one `handle()` call. -/
def initSt (cfg : ChainCfg) : ChainSt :=
  { index := 0, handlerResponse := none,
    query := cfg.baseCtx.query, params := cfg.baseCtx.params, log := [] }

/-- One `handle()` call: build the configuration and drive the chain
(`const response = await next()`). -/
def handleRun (root : AppT) (req : Req) (customState : Option JVal) (fuel : Nat) :
    Option (ChainSt × Resp) :=
  nextFn (handleCfg root req customState).1 fuel (initSt (handleCfg root req customState).1)

/-- The source's `add`: append a route with its path normalized
(trailing slash stripped, `"/"` when empty). -/
def addRoute (app : AppT) (method : String) (path : Str) (handler : Handler)
    (rtype : String := "") (vq : Option Validator := none)
    (vp : Option Validator := none) (vb : Option Validator := none) : AppT :=
  match app with
  | .node aid pre sc mws ehs routes ds cs =>
      .node aid pre sc mws ehs
        (routes ++ [{ method := method, path := normPath path, rtype := rtype,
                      handler := handler, validateBody := vb, validateQuery := vq,
                      validateParams := vp }]) ds cs

/-! ### Structural lemmas about one chain run

`Delta cfg st st'` captures every invariant of a completed interpreter
step from `st` to `st'`: the index only grows and stays within the
middleware count, the log only grows, the middleware events appended are
exactly the indices crossed (in order), the handler event is appended at
most once, only while no `handlerResponse` is stored, always at the end
of the chain, and `handlerResponse`, once set, stays set. -/

def Delta (cfg : ChainCfg) (st st' : ChainSt) : Prop :=
  st.index ≤ st'.index ∧ st'.index ≤ cfg.mws.length ∧
  ∃ Δ hΔ, st'.log = st.log ++ Δ ∧
    (hΔ = [] ∨ hΔ = [Ev.handler]) ∧
    Δ.filter evIsMwH = (List.range' st.index (st'.index - st.index)).map Ev.mw ++ hΔ ∧
    (st.handlerResponse.isSome = true → hΔ = []) ∧
    (hΔ = [Ev.handler] → st'.handlerResponse.isSome = true ∧ st'.index = cfg.mws.length) ∧
    (st.handlerResponse.isSome = true → st'.handlerResponse.isSome = true)

theorem Delta.refl (cfg : ChainCfg) (st : ChainSt) (h : st.index ≤ cfg.mws.length) :
    Delta cfg st st := by
  refine ⟨le_refl _, h, [], [], by simp, Or.inl rfl, by simp, fun _ => rfl, by simp, fun h => h⟩

theorem range'_map_splice (i j l : Nat) (h1 : i ≤ j) (h2 : j ≤ l) :
    List.map Ev.mw (List.range' i (j - i)) ++ List.map Ev.mw (List.range' j (l - j)) =
      List.map Ev.mw (List.range' i (l - i)) := by
  rw [← List.map_append]
  have hj : j = i + (j - i) := by omega
  nth_rewrite 2 [hj]
  rw [List.range'_append_1]
  congr 2
  omega

theorem Delta.trans {cfg : ChainCfg} {st1 st2 st3 : ChainSt}
    (d1 : Delta cfg st1 st2) (d2 : Delta cfg st2 st3) : Delta cfg st1 st3 := by
  obtain ⟨hi1, hl1, Δ1, h1, hlog1, hcase1, hfil1, hnone1, hhand1, hmono1⟩ := d1
  obtain ⟨hi2, hl2, Δ2, h2, hlog2, hcase2, hfil2, hnone2, hhand2, hmono2⟩ := d2
  rcases hcase1 with hc1 | hc1
  · -- first step has no handler event: splice the middleware ranges
    refine ⟨le_trans hi1 hi2, hl2, Δ1 ++ Δ2, h2, ?_, hcase2, ?_, ?_, ?_, fun h => hmono2 (hmono1 h)⟩
    · rw [hlog2, hlog1, List.append_assoc]
    · rw [List.filter_append, hfil1, hfil2, hc1, List.append_nil, ← List.append_assoc,
        range'_map_splice st1.index st2.index st3.index hi1 hi2]
    · intro hs
      exact hnone2 (hmono1 hs)
    · intro hh
      exact hhand2 hh
  · -- first step ran the handler: afterwards the chain is pinned at the end
    have hst2 := hhand1 hc1
    have h2nil : h2 = [] := hnone2 hst2.1
    have hidx : st3.index = st2.index := by omega
    refine ⟨le_trans hi1 hi2, hl2, Δ1 ++ Δ2, [Ev.handler], ?_, Or.inr rfl, ?_, ?_, ?_,
      fun h => hmono2 (hmono1 h)⟩
    · rw [hlog2, hlog1, List.append_assoc]
    · rw [List.filter_append, hfil1, hfil2, hc1, h2nil, List.append_nil, hidx]
      rw [show st2.index - st2.index = 0 from by omega]
      simp only [List.range'_zero, List.map_nil, List.append_nil]
    · intro hs
      exact absurd (hnone1 hs) (by simp [hc1])
    · intro _
      exact ⟨hmono2 hst2.1, by omega⟩

theorem runErrorHandlersAux_log (e : ErrData) (hs : List ErrH) (i : Nat) (log : List Ev) :
    ∃ Δ, (runErrorHandlersAux e hs i log).1 = log ++ Δ ∧ Δ.filter evIsMwH = [] := by
  induction hs generalizing i log with
  | nil => exact ⟨[], by simp [runErrorHandlersAux], rfl⟩
  | cons h rest ih =>
      simp only [runErrorHandlersAux]
      cases h e with
      | resp r => exact ⟨[Ev.errH i], by simp, by simp [evIsMwH]⟩
      | promise r =>
          obtain ⟨Δ, hΔ, hf⟩ := ih (i + 1) (log ++ [Ev.errH i])
          exact ⟨[Ev.errH i] ++ Δ, by simpa using hΔ, by simp [List.filter_append, hf, evIsMwH]⟩
      | other =>
          obtain ⟨Δ, hΔ, hf⟩ := ih (i + 1) (log ++ [Ev.errH i])
          exact ⟨[Ev.errH i] ++ Δ, by simpa using hΔ, by simp [List.filter_append, hf, evIsMwH]⟩

theorem getResForError_log (errHs : List ErrH) (e : Err) (log : List Ev) :
    ∃ Δ, (getResForError errHs e log).1 = log ++ Δ ∧ Δ.filter evIsMwH = [] := by
  cases e with
  | resp r => exact ⟨[], by simp [getResForError], rfl⟩
  | exn ed =>
      simp only [getResForError, runErrorHandlers]
      by_cases h : errHs.isEmpty
      · simp only [h, if_pos]
        exact ⟨[Ev.consoleErr], by simp, by simp [evIsMwH]⟩
      · simp only [h, if_neg, Bool.false_eq_true, not_false_eq_true]
        obtain ⟨Δ, hΔ, hf⟩ := runErrorHandlersAux_log ed errHs 0 log
        rcases hrun : runErrorHandlersAux ed errHs 0 log with ⟨l, ores⟩
        cases ores with
        | some r => exact ⟨Δ, by rw [hrun] at hΔ; simpa using hΔ, hf⟩
        | none => exact ⟨Δ, by rw [hrun] at hΔ; simpa using hΔ, hf⟩

theorem delta_getResStep (cfg : ChainCfg) (e : Err) (st : ChainSt)
    (h : st.index ≤ cfg.mws.length) : Delta cfg st (getResStep cfg e st) := by
  obtain ⟨Δ, hΔ, hf⟩ := getResForError_log cfg.errHs e st.log
  refine ⟨le_refl _, h, Δ, [], ?_, Or.inl rfl, ?_, fun _ => rfl, by simp, fun _ => ?_⟩
  · simpa [getResStep] using hΔ
  · simp [getResStep, hf]
  · simp [getResStep]

theorem delta_mwEvent (cfg : ChainCfg) (st : ChainSt) (h : st.index < cfg.mws.length) :
    Delta cfg st (mwEntrySt st) := by
  refine ⟨Nat.le_succ _, h, [Ev.mw st.index], [], rfl, Or.inl rfl, ?_, fun _ => rfl, by simp,
    fun h => h⟩
  simp [mwEntrySt, evIsMwH, List.filter, show st.index + 1 - st.index = 1 from by omega]

theorem delta_setHr (cfg : ChainCfg) (st : ChainSt) (r : Resp) (h : st.index ≤ cfg.mws.length) :
    Delta cfg st { st with handlerResponse := some r } := by
  refine ⟨le_refl _, h, [], [], by simp, Or.inl rfl, by simp, fun _ => rfl, by simp, fun _ => by simp⟩

theorem delta_applyStore (cfg : ChainCfg) (st : ChainSt) (res : HRes)
    (h : st.index ≤ cfg.mws.length) : Delta cfg st (applyStore st res) := by
  cases res with
  | resp r => exact delta_setHr cfg st r h
  | val v => exact Delta.refl cfg st h

theorem tailStep_done (cfg : ChainCfg) (st st4 : ChainSt) (r : Resp)
    (h : tailStep cfg st = .done st4 r) :
    st4.index = st.index ∧ st4.handlerResponse = some r ∧
      ((st.handlerResponse = some r ∧ st4 = st) ∨
        (st.handlerResponse = none ∧ st4.log = st.log ++ [Ev.handler])) := by
  unfold tailStep at h
  split at h
  · -- handlerResponse = some
    rename_i r0 hhr
    cases h
    exact ⟨rfl, hhr, Or.inl ⟨hhr, rfl⟩⟩
  · rename_i hhr
    split at h
    · cases h
    · rename_i q hq
      split at h
      · cases h
      · rename_i ps hp
        split at h
        · cases h
        · cases h
          exact ⟨rfl, rfl, Or.inr ⟨hhr, rfl⟩⟩
        · split at h
          · cases h
            exact ⟨rfl, rfl, Or.inr ⟨hhr, rfl⟩⟩
          · cases h
        · split at h
          · cases h
            exact ⟨rfl, rfl, Or.inr ⟨hhr, rfl⟩⟩
          · cases h

theorem tailStep_caught (cfg : ChainCfg) (st st4 : ChainSt) (e : Err)
    (h : tailStep cfg st = .caught st4 e) :
    st4.index = st.index ∧ st.handlerResponse = none ∧ st4.handlerResponse = none ∧
      ((st4.log = st.log ∧
          ((∃ e', runValidation st.query cfg.route.validateQuery = Except.error e') ∨
           (∃ e', runValidation st.params cfg.route.validateParams = Except.error e'))) ∨
        st4.log = st.log ++ [Ev.handler]) := by
  unfold tailStep at h
  split at h
  · cases h
  · rename_i hhr
    split at h
    · rename_i hq
      cases h
      exact ⟨rfl, hhr, hhr, Or.inl ⟨rfl, Or.inl ⟨_, hq⟩⟩⟩
    · rename_i q hq
      split at h
      · rename_i hp
        cases h
        exact ⟨rfl, hhr, hhr, Or.inl ⟨rfl, Or.inr ⟨_, hp⟩⟩⟩
      · rename_i ps hp
        split at h
        · cases h
          exact ⟨rfl, hhr, hhr, Or.inr rfl⟩
        · cases h
        · split at h
          · cases h
          · cases h
            exact ⟨rfl, hhr, hhr, Or.inr rfl⟩
        · split at h
          · cases h
          · cases h
            exact ⟨rfl, hhr, hhr, Or.inr rfl⟩

/-- Every completed `next()` run satisfies the `Delta` invariants. -/
def NextGen (cfg : ChainCfg) (f : Nat) : Prop :=
  ∀ st st' r, st.index ≤ cfg.mws.length → nextFn cfg f st = some (st', r) → Delta cfg st st'

/-- Every completed middleware-program run satisfies the `Delta`
invariants. -/
def InterpGen (cfg : ChainCfg) (f : Nat) : Prop :=
  ∀ p st st' out, st.index ≤ cfg.mws.length → interpMw cfg f p st = some (st', out) →
    Delta cfg st st'

theorem tailPart_delta (cfg : ChainCfg) (f : Nat) (hN : NextGen cfg f) (s st' : ChainSt)
    (r : Resp) (hle : s.index ≤ cfg.mws.length) (hnl : ¬ s.index < cfg.mws.length)
    (h : (match tailStep cfg s with
          | .done st4 r0 => some (st4, r0)
          | .caught st4 e => nextFn cfg f (getResStep cfg e st4)) = some (st', r)) :
    Delta cfg s st' := by
  have hidx : s.index = cfg.mws.length := by omega
  rcases ht : tailStep cfg s with ⟨st4, r0⟩ | ⟨st4, e⟩ <;> rw [ht] at h
  · obtain ⟨hi4, hr4, hcases⟩ := tailStep_done cfg s st4 r0 ht
    cases h
    rcases hcases with ⟨hsome, hst⟩ | ⟨hnone, hlog⟩
    · rw [hst]
      exact Delta.refl cfg s hle
    · refine ⟨by omega, by omega, [Ev.handler], [Ev.handler], hlog, Or.inr rfl, ?_, ?_, ?_, ?_⟩
      · have h0 : st'.index - s.index = 0 := by omega
        simp [evIsMwH, List.filter, h0]
      · intro hs
        rw [hnone] at hs
        simp at hs
      · intro _
        exact ⟨by simp [hr4], by omega⟩
      · intro hs
        rw [hnone] at hs
        simp at hs
  · obtain ⟨hi4, hsnone, h4none, hlogs⟩ := tailStep_caught cfg s st4 e ht
    obtain ⟨Δg, hglog, hgfil⟩ := getResForError_log cfg.errHs e st4.log
    have hsgidx : (getResStep cfg e st4).index = s.index := by
      simp [getResStep]
      omega
    have hsgsome : (getResStep cfg e st4).handlerResponse.isSome = true := by
      simp [getResStep]
    obtain ⟨hin, hln, Δn, hΔn, hlogn, hcasen, hfiln, hnonen, hhandn, hmonon⟩ :=
      hN (getResStep cfg e st4) st' r (by rw [hsgidx]; exact hle) h
    have hΔnnil : hΔn = [] := hnonen hsgsome
    have hidx' : st'.index = cfg.mws.length := by omega
    have hsglog : (getResStep cfg e st4).log = st4.log ++ Δg := by
      simp [getResStep, hglog]
    rcases hlogs with ⟨h4log, _⟩ | h4log
    · refine ⟨by omega, by omega, Δg ++ Δn, [], ?_, Or.inl rfl, ?_, fun _ => rfl, by simp, ?_⟩
      · rw [hlogn, hsglog, h4log, List.append_assoc]
      · rw [List.filter_append, hgfil, List.nil_append, hfiln, hΔnnil, hsgidx]
      · intro hs
        rw [hsnone] at hs
        simp at hs
    · refine ⟨by omega, by omega, [Ev.handler] ++ (Δg ++ Δn), [Ev.handler], ?_, Or.inr rfl,
        ?_, ?_, ?_, ?_⟩
      · rw [hlogn, hsglog, h4log]
        simp
      · rw [List.filter_append, List.filter_append, hgfil, hfiln, hΔnnil, hsgidx]
        have h0 : st'.index - s.index = 0 := by omega
        simp [evIsMwH, List.filter, h0]
      · intro hs
        rw [hsnone] at hs
        simp at hs
      · intro _
        exact ⟨hmonon hsgsome, hidx'⟩
      · intro hs
        rw [hsnone] at hs
        simp at hs

theorem chainGen (cfg : ChainCfg) : ∀ f, NextGen cfg f ∧ InterpGen cfg f := by
  intro f
  induction f with
  | zero =>
      constructor
      · intro st st' r _ h
        simp [nextFn] at h
      · intro p st st' out hle h
        cases p with
        | done rr =>
            simp only [interpMw] at h
            cases h
            exact Delta.refl cfg st hle
        | callNext k => simp [interpMw] at h
  | succ f ih =>
      obtain ⟨ihN, ihI⟩ := ih
      constructor
      · intro st st' r hle h
        rw [nextFn] at h
        by_cases hidx : st.index < cfg.mws.length
        · rw [dif_pos hidx] at h
          have d01 : Delta cfg st (mwEntrySt st) := delta_mwEvent cfg st hidx
          have hle1 : (mwEntrySt st).index ≤ cfg.mws.length := by
            simp [mwEntrySt]
            omega
          rcases hint : interpMw cfg f (cfg.mws.get ⟨st.index, hidx⟩ (ctxAt cfg (mwEntrySt st)))
              (mwEntrySt st) with _ | ⟨st2, out⟩ <;> rw [hint] at h
          · cases h
          · have d12 : Delta cfg (mwEntrySt st) st2 := ihI _ _ _ _ hle1 hint
            have hle2 : st2.index ≤ cfg.mws.length := d12.2.1
            cases out with
            | error e =>
                have dg : Delta cfg st2 (getResStep cfg e st2) := delta_getResStep cfg e st2 hle2
                have dn : Delta cfg (getResStep cfg e st2) st' := by
                  refine ihN _ _ _ ?_ h
                  simp [getResStep]
                  exact hle2
                exact d01.trans (d12.trans (dg.trans dn))
            | ok res =>
                dsimp only at h
                have d23 : Delta cfg st2 (applyStore st2 res) := delta_applyStore cfg st2 res hle2
                have hle3 : (applyStore st2 res).index ≤ cfg.mws.length := d23.2.1
                by_cases hcont : res.truthy = false ∧ (applyStore st2 res).index < cfg.mws.length
                · rw [if_pos hcont] at h
                  have dn : Delta cfg (applyStore st2 res) st' := ihN _ _ _ hle3 h
                  exact d01.trans (d12.trans (d23.trans dn))
                · rw [if_neg hcont] at h
                  by_cases htr : res.truthy
                  · rw [if_pos htr] at h
                    rcases hturn : turnHandlerResultIntoResponse res cfg.route.rtype
                        cfg.route.path with e | rr <;> rw [hturn] at h
                    · have dg : Delta cfg (applyStore st2 res)
                          (getResStep cfg e (applyStore st2 res)) :=
                        delta_getResStep cfg e _ hle3
                      have dn : Delta cfg (getResStep cfg e (applyStore st2 res)) st' := by
                        refine ihN _ _ _ ?_ h
                        simp [getResStep]
                        exact hle3
                      exact d01.trans (d12.trans (d23.trans (dg.trans dn)))
                    · cases h
                      exact d01.trans (d12.trans d23)
                  · rw [if_neg htr] at h
                    have hf : res.truthy = false := by
                      cases hb : res.truthy
                      · rfl
                      · exact absurd hb htr
                    have hnl3 : ¬ (applyStore st2 res).index < cfg.mws.length :=
                      fun hlt => hcont ⟨hf, hlt⟩
                    have dtail : Delta cfg (applyStore st2 res) st' :=
                      tailPart_delta cfg f ihN _ st' r hle3 hnl3 h
                    exact d01.trans (d12.trans (d23.trans dtail))
        · rw [dif_neg hidx] at h
          exact tailPart_delta cfg f ihN st st' r hle hidx h
      · intro p st st' out hle h
        cases p with
        | done rr =>
            simp only [interpMw] at h
            cases h
            exact Delta.refl cfg st hle
        | callNext k =>
            rw [interpMw] at h
            rcases hn : nextFn cfg f st with _ | ⟨stm, rm⟩ <;> rw [hn] at h
            · cases h
            · have d1 : Delta cfg st stm := ihN _ _ _ hle hn
              have d2 : Delta cfg stm st' := ihI _ _ _ _ d1.2.1 h
              exact d1.trans d2

/-- A middleware behavior that does not short-circuit the chain: its
first step either falls through with a falsy non-response value (the
default continue) or calls `next()`; it does not throw or return a
truthy value before the rest of the chain had its chance to run. -/
def NoShortCircuit : MwProg → Prop
  | .done (.ok (.val v)) => v.truthy = false
  | .done _ => False
  | .callNext _ => True

theorem delta_silent {cfg : ChainCfg} {st st' : ChainSt} (d : Delta cfg st st')
    (hge : cfg.mws.length ≤ st.index) (hsome : st.handlerResponse.isSome = true) :
    (st'.log).filter evIsMwH = (st.log).filter evIsMwH ∧
      st'.handlerResponse.isSome = true ∧ st'.index = st.index := by
  obtain ⟨hi, hl, Δ, hΔ, hlog, hcase, hfil, hnoneC, _, hmono⟩ := d
  have hΔnil : hΔ = [] := hnoneC hsome
  have hidx : st'.index = st.index := by omega
  refine ⟨?_, hmono hsome, hidx⟩
  rw [hlog, List.filter_append, hfil, hΔnil, hidx]
  simp

theorem silent_next (cfg : ChainCfg) (f : Nat) (st st' : ChainSt) (r : Resp)
    (hge : cfg.mws.length ≤ st.index) (hle : st.index ≤ cfg.mws.length)
    (hsome : st.handlerResponse.isSome = true) (h : nextFn cfg f st = some (st', r)) :
    (st'.log).filter evIsMwH = (st.log).filter evIsMwH ∧
      st'.handlerResponse.isSome = true ∧ st'.index = st.index :=
  delta_silent ((chainGen cfg f).1 st st' r hle h) hge hsome

theorem silent_interp (cfg : ChainCfg) (f : Nat) (p : MwProg) (st st' : ChainSt)
    (out : Except Err HRes) (hge : cfg.mws.length ≤ st.index) (hle : st.index ≤ cfg.mws.length)
    (hsome : st.handlerResponse.isSome = true) (h : interpMw cfg f p st = some (st', out)) :
    (st'.log).filter evIsMwH = (st.log).filter evIsMwH ∧
      st'.handlerResponse.isSome = true ∧ st'.index = st.index :=
  delta_silent ((chainGen cfg f).2 p st st' out hle h) hge hsome

theorem tailStep_caught_clean (cfg : ChainCfg) (st st4 : ChainSt) (e : Err)
    (hqv : ∀ v, ∃ q, runValidation v cfg.route.validateQuery = Except.ok q)
    (hpv : ∀ v, ∃ q, runValidation v cfg.route.validateParams = Except.ok q)
    (h : tailStep cfg st = .caught st4 e) :
    st4.index = st.index ∧ st.handlerResponse = none ∧ st4.handlerResponse = none ∧
      st4.log = st.log ++ [Ev.handler] := by
  obtain ⟨hi4, hsn, h4n, hlogs⟩ := tailStep_caught cfg st st4 e h
  rcases hlogs with ⟨_, hbad | hbad⟩ | h4log
  · obtain ⟨e', he'⟩ := hbad
    obtain ⟨q, hq⟩ := hqv st.query
    rw [hq] at he'
    cases he'
  · obtain ⟨e', he'⟩ := hbad
    obtain ⟨q, hq⟩ := hpv st.params
    rw [hq] at he'
    cases he'
  · exact ⟨hi4, hsn, h4n, h4log⟩

theorem applyStore_log (st : ChainSt) (res : HRes) : (applyStore st res).log = st.log := by
  cases res <;> rfl

theorem applyStore_index (st : ChainSt) (res : HRes) : (applyStore st res).index = st.index := by
  cases res <;> rfl

theorem applyStore_some (st : ChainSt) (res : HRes)
    (h : st.handlerResponse.isSome = true) :
    (applyStore st res).handlerResponse.isSome = true := by
  cases res <;> simp [applyStore] <;> exact h

theorem consRange (l1 : List Ev) (i len : Nat) (hi : i < len) :
    (l1 ++ [Ev.mw i]) ++ (List.range' (i + 1) (len - (i + 1))).map Ev.mw ++ [Ev.handler] =
      l1 ++ (List.range' i (len - i)).map Ev.mw ++ [Ev.handler] := by
  have hsplit : len - i = (len - (i + 1)) + 1 := by omega
  rw [hsplit, List.range'_succ]
  simp

theorem tailPart_clean (cfg : ChainCfg) (f : Nat) (s st' : ChainSt) (r : Resp)
    (hqv : ∀ v, ∃ q, runValidation v cfg.route.validateQuery = Except.ok q)
    (hpv : ∀ v, ∃ q, runValidation v cfg.route.validateParams = Except.ok q)
    (hle : s.index ≤ cfg.mws.length) (hnl : ¬ s.index < cfg.mws.length)
    (hnone : s.handlerResponse = none)
    (h : (match tailStep cfg s with
          | .done st4 r0 => some (st4, r0)
          | .caught st4 e => nextFn cfg f (getResStep cfg e st4)) = some (st', r)) :
    (st'.log).filter evIsMwH = (s.log).filter evIsMwH ++ [Ev.handler] ∧
      st'.handlerResponse.isSome = true ∧ st'.index = cfg.mws.length := by
  have hidx : s.index = cfg.mws.length := by omega
  rcases ht : tailStep cfg s with ⟨st4, r0⟩ | ⟨st4, e⟩ <;> rw [ht] at h
  · obtain ⟨hi4, hr4, hcases⟩ := tailStep_done cfg s st4 r0 ht
    cases h
    rcases hcases with ⟨hsome, _⟩ | ⟨_, hlog⟩
    · rw [hnone] at hsome
      cases hsome
    · refine ⟨?_, by simp [hr4], by omega⟩
      rw [hlog, List.filter_append]
      simp [evIsMwH, List.filter]
  · obtain ⟨hi4, _, h4none, h4log⟩ := tailStep_caught_clean cfg s st4 e hqv hpv ht
    have hsgidx : (getResStep cfg e st4).index = st4.index := by simp [getResStep]
    obtain ⟨Δg, hglog, hgfil⟩ := getResForError_log cfg.errHs e st4.log
    obtain ⟨hfeq, hsome', hidx'⟩ := silent_next cfg f _ st' r (by rw [hsgidx]; omega)
      (by rw [hsgidx]; omega) (by simp [getResStep]) h
    refine ⟨?_, hsome', by rw [hidx', hsgidx]; omega⟩
    rw [hfeq]
    have : (getResStep cfg e st4).log = st4.log ++ Δg := by simp [getResStep, hglog]
    rw [this, List.filter_append, hgfil, List.append_nil, h4log, List.filter_append]
    simp [evIsMwH, List.filter]

theorem chainClean (cfg : ChainCfg)
    (hmw : ∀ i (hi : i < cfg.mws.length) c, NoShortCircuit (cfg.mws.get ⟨i, hi⟩ c))
    (hqv : ∀ v, ∃ q, runValidation v cfg.route.validateQuery = Except.ok q)
    (hpv : ∀ v, ∃ q, runValidation v cfg.route.validateParams = Except.ok q) :
    ∀ f st st' r, st.index ≤ cfg.mws.length → st.handlerResponse = none →
      nextFn cfg f st = some (st', r) →
      (st'.log).filter evIsMwH =
        (st.log).filter evIsMwH ++
          (List.range' st.index (cfg.mws.length - st.index)).map Ev.mw ++ [Ev.handler] ∧
        st'.handlerResponse.isSome = true ∧ st'.index = cfg.mws.length := by
  intro f
  induction f using Nat.strong_induction_on with
  | _ f ihf =>
    intro st st' r hle hnone h
    cases f with
    | zero => simp [nextFn] at h
    | succ f' =>
      rw [nextFn] at h
      by_cases hidx : st.index < cfg.mws.length
      · rw [dif_pos hidx] at h
        have hle1 : (mwEntrySt st).index ≤ cfg.mws.length := by
          simp [mwEntrySt]
          omega
        have hnone1 : (mwEntrySt st).handlerResponse = none := by
          simp [mwEntrySt, hnone]
        have hlog1 : (mwEntrySt st).log.filter evIsMwH =
            (st.log).filter evIsMwH ++ [Ev.mw st.index] := by
          simp [mwEntrySt, List.filter_append, evIsMwH, List.filter]
        rcases hpz : cfg.mws.get ⟨st.index, hidx⟩ (ctxAt cfg (mwEntrySt st)) with rr | k
        all_goals rw [hpz] at h
        · -- the middleware finishes immediately: no-short-circuit forces a falsy value
          have hns := hmw st.index hidx (ctxAt cfg (mwEntrySt st))
          rw [hpz] at hns
          rcases rr with e | res
          · simp [NoShortCircuit] at hns
          · rcases res with r0 | v
            · simp [NoShortCircuit] at hns
            · simp only [NoShortCircuit] at hns
              simp only [interpMw] at h
              dsimp only [applyStore, HRes.truthy] at h
              rw [hns] at h
              by_cases hlt : (mwEntrySt st).index < cfg.mws.length
              · rw [if_pos ⟨rfl, hlt⟩] at h
                obtain ⟨hf, hs, hi⟩ := ihf f' (by omega) (mwEntrySt st) st' r hle1 hnone1 h
                refine ⟨?_, hs, hi⟩
                rw [hf, hlog1]
                have hi1 : (mwEntrySt st).index = st.index + 1 := rfl
                rw [hi1]
                exact consRange _ st.index cfg.mws.length hidx
              · rw [if_neg (fun hc => hlt hc.2)] at h
                rw [if_neg (by simp)] at h
                obtain ⟨hf, hs, hi⟩ :=
                  tailPart_clean cfg f' (mwEntrySt st) st' r hqv hpv hle1 hlt hnone1 h
                refine ⟨?_, hs, hi⟩
                rw [hf, hlog1]
                have hone : cfg.mws.length - st.index = 1 := by
                  have : (mwEntrySt st).index = st.index + 1 := rfl
                  rw [this] at hlt
                  omega
                rw [hone]
                simp
        · -- the middleware awaits next(): the rest of the chain runs inside
          cases f' with
          | zero =>
              simp [interpMw] at h
          | succ f'' =>
              rw [interpMw] at h
              rcases hin : nextFn cfg f'' (mwEntrySt st) with _ | ⟨stm, rm⟩ <;> rw [hin] at h
              · dsimp only at h
                cases h
              · obtain ⟨hmf, hmsome, hmidx⟩ :=
                  ihf f'' (by omega) (mwEntrySt st) stm rm hle1 hnone1 hin
                dsimp only at h
                rcases hint2 : interpMw cfg f'' (k rm) stm with _ | ⟨st2, out⟩ <;>
                  rw [hint2] at h
                · dsimp only at h
                  cases h
                · obtain ⟨hf2, hsome2, hidx2⟩ := silent_interp cfg f'' (k rm) stm st2 out
                    (by omega) (by omega) hmsome hint2
                  have hfin : (st2.log).filter evIsMwH =
                      (st.log).filter evIsMwH ++
                        (List.range' st.index (cfg.mws.length - st.index)).map Ev.mw ++
                        [Ev.handler] := by
                    rw [hf2, hmf, hlog1]
                    have hi1 : (mwEntrySt st).index = st.index + 1 := rfl
                    rw [hi1]
                    exact consRange _ st.index cfg.mws.length hidx
                  have hidx2' : st2.index = cfg.mws.length := by omega
                  cases out with
                  | error e =>
                      obtain ⟨hf3, hsome3, hidx3⟩ := silent_next cfg (f'' + 1)
                        (getResStep cfg e st2)
                        st' r (by simp [getResStep]; omega) (by simp [getResStep]; omega)
                        (by simp [getResStep]) h
                      refine ⟨?_, hsome3, ?_⟩
                      · rw [hf3]
                        obtain ⟨Δg, hglog, hgfil⟩ := getResForError_log cfg.errHs e st2.log
                        have : (getResStep cfg e st2).log = st2.log ++ Δg := by
                          simp [getResStep, hglog]
                        rw [this, List.filter_append, hgfil, List.append_nil, hfin]
                      · rw [hidx3]
                        simp [getResStep]
                        omega
                  | ok res =>
                      dsimp only at h
                      have hsome3 : (applyStore st2 res).handlerResponse.isSome = true :=
                        applyStore_some st2 res hsome2
                      have hidx3 : (applyStore st2 res).index = cfg.mws.length := by
                        rw [applyStore_index]
                        omega
                      rw [if_neg (fun hc => by rw [hidx3] at hc; omega)] at h
                      by_cases htr : res.truthy = true
                      · rw [if_pos htr] at h
                        rcases hturn : turnHandlerResultIntoResponse res cfg.route.rtype
                            cfg.route.path with e | rr <;> rw [hturn] at h
                        · obtain ⟨hf4, hsome4, hidx4⟩ := silent_next cfg (f'' + 1)
                            (getResStep cfg e (applyStore st2 res)) st' r
                            (by simp [getResStep]; omega) (by simp [getResStep]; omega)
                            (by simp [getResStep]) h
                          refine ⟨?_, hsome4, ?_⟩
                          · rw [hf4]
                            obtain ⟨Δg, hglog, hgfil⟩ :=
                              getResForError_log cfg.errHs e (applyStore st2 res).log
                            have : (getResStep cfg e (applyStore st2 res)).log =
                                (applyStore st2 res).log ++ Δg := by
                              simp [getResStep, hglog]
                            rw [this, List.filter_append, hgfil, List.append_nil,
                              applyStore_log, hfin]
                          · rw [hidx4]
                            simp [getResStep, applyStore_index]
                            omega
                        · cases h
                          refine ⟨?_, hsome3, hidx3⟩
                          rw [applyStore_log, hfin]
                      · rw [if_neg htr] at h
                        rcases httail : tailStep cfg (applyStore st2 res) with ⟨st4, r0⟩ |
                            ⟨st4, e⟩ <;> rw [httail] at h
                        · obtain ⟨hi4, hr4, hcase4⟩ :=
                            tailStep_done cfg (applyStore st2 res) st4 r0 httail
                          cases h
                          rcases hcase4 with ⟨_, hst⟩ | ⟨hbad, _⟩
                          · rw [hst]
                            refine ⟨?_, hsome3, hidx3⟩
                            rw [applyStore_log, hfin]
                          · rw [hbad] at hsome3
                            cases hsome3
                        · obtain ⟨_, hbad, _, _⟩ :=
                            tailStep_caught cfg (applyStore st2 res) st4 e httail
                          rw [hbad] at hsome3
                          cases hsome3
      · rw [dif_neg hidx] at h
        obtain ⟨hf, hs, hi⟩ := tailPart_clean cfg f' st st' r hqv hpv hle hidx hnone h
        refine ⟨?_, hs, hi⟩
        rw [hf]
        have h0 : cfg.mws.length - st.index = 0 := by omega
        rw [h0]
        simp

theorem mwh_nodup (s n : Nat) (hΔ : List Ev) (hc : hΔ = [] ∨ hΔ = [Ev.handler]) :
    ((List.range' s n).map Ev.mw ++ hΔ).Nodup := by
  have hmap : ((List.range' s n).map Ev.mw).Nodup := by
    refine (List.nodup_range' s n).map ?_
    intro a b hab
    cases hab
    rfl
  rcases hc with rfl | rfl
  · simpa using hmap
  · refine List.Nodup.append hmap (by simp) ?_
    intro a ha hb
    simp at hb
    rw [hb] at ha
    simp at ha

/-- Demonstration app for the chain claims, mirroring the repository's
"middleware stops other middlewares" test: the first middleware returns a
`Response` synchronously, a second middleware and a terminal GET route
follow. -/
def shortCircuitApp : AppT :=
  .node 0 [] none
    [fun _ => .done (.ok (.resp { status := 200, body := .text "ok" })),
     fun _ => .done (.ok (.val .undef))]
    [] [{ method := "GET", path := "/test".data, handler := fun _ => .val (.str "hi") }]
    (.obj []) []

/-- The request used against `shortCircuitApp`. -/
def shortCircuitReq : Req := { method := "GET", pathname := "/test".data }

/-- C1 counterexample: the claim "each middleware in the collected chain
and the terminal route handler execute exactly once" is false as stated.
In `shortCircuitApp` the collected chain has two middlewares and a
matched route handler, the `handle()` run completes, yet the second
middleware and the terminal handler are invoked zero times (the first
middleware returned a truthy `Response` without calling `next()`),
exactly as the repository's own "middleware stops other middlewares"
test expects. -/
theorem c1_counterexample :
    (handleCfg shortCircuitApp shortCircuitReq none).1.mws.length = 2 ∧
    (handleRun shortCircuitApp shortCircuitReq none 6).map
        (fun p => (p.1.log.count (Ev.mw 1), p.1.log.count Ev.handler)) = some (0, 0) := by
  constructor
  · decide
  · decide

/-- C1 (amended): per `handle()` invocation each middleware in the
collected chain and the terminal route handler execute at most once, no
matter how many times `next()` is awaited or whether errors occur (the
middleware/handler events of any completed run form a duplicate-free
list); and every call to `next()` made after the chain index has reached
the end of the middleware list with a stored `handlerResponse` returns
that stored response unchanged — same state, no new invocations — and
never re-invokes the route handler. -/
theorem c1_at_most_once_and_resumption :
    (∀ root req cust fuel,
        (handleRun root req cust fuel).isSome = true →
        (handleRun root req cust fuel).map
            (fun p => decide (p.1.log.filter evIsMwH).Nodup) = some true) ∧
    (∀ (cfg : ChainCfg) (st : ChainSt) (r : Resp) (f : Nat),
        cfg.mws.length ≤ st.index → st.handlerResponse = some r →
        nextFn cfg (f + 1) st = some (st, r)) := by
  constructor
  · intro root req cust fuel hsome
    rcases hrun : handleRun root req cust fuel with _ | p
    · rw [hrun] at hsome
      cases hsome
    · obtain ⟨st', r⟩ := p
      have hD := (chainGen (handleCfg root req cust).1 fuel).1 _ st' r (Nat.zero_le _) hrun
      obtain ⟨_, _, Δ, hΔ, hlog, hcase, hfil, _, _, _⟩ := hD
      simp only [Option.map]
      congr 1
      rw [decide_eq_true_iff]
      have hlog' : st'.log = Δ := by simpa [initSt] using hlog
      rw [hlog', hfil]
      exact mwh_nodup _ _ hΔ hcase
  · intro cfg st r f hge hsome
    rw [nextFn, dif_neg (by omega)]
    unfold tailStep
    rw [hsome]

/-- Witness for the amended C1: both conjuncts applied at concrete
inputs — the short-circuit app's completed run, and a chain state at the
end of a two-middleware list with a stored response. -/
theorem c1_witness :
    (handleRun shortCircuitApp shortCircuitReq none 6).map
        (fun p => decide (p.1.log.filter evIsMwH).Nodup) = some true ∧
    nextFn (handleCfg shortCircuitApp shortCircuitReq none).1 3
        { index := 2, handlerResponse := some { status := 200, body := .text "ok" },
          query := .obj [], params := .obj [], log := [] } =
      some ({ index := 2, handlerResponse := some { status := 200, body := .text "ok" },
              query := .obj [], params := .obj [], log := [] },
            { status := 200, body := .text "ok" }) :=
  ⟨c1_at_most_once_and_resumption.1 shortCircuitApp shortCircuitReq none 6 (by decide),
   c1_at_most_once_and_resumption.2 (handleCfg shortCircuitApp shortCircuitReq none).1
     _ _ 2 (by decide) rfl⟩

/-- C2: for the middlewares M1..Mk collected in order from the apps in
scope and the terminal handler H of the matched route, if no middleware
short-circuits (each one either falls through with a falsy value or
awaits `next()`) and the route's query/params validators accept, then a
completed `handle()` call invokes them in the order M1, ..., Mk, H — the
middleware/handler events of the run's log are exactly
`[mw 0, ..., mw (k-1), handler]` — each exactly once, even when H throws
(H is unconstrained here, so throwing handlers are covered). -/
theorem c2_middleware_order (root : AppT) (req : Req) (cust : Option JVal) (fuel : Nat)
    (hmw : ∀ i (hi : i < (handleCfg root req cust).1.mws.length) c,
        NoShortCircuit ((handleCfg root req cust).1.mws.get ⟨i, hi⟩ c))
    (hqv : ∀ v, ∃ q,
        runValidation v (handleCfg root req cust).1.route.validateQuery = Except.ok q)
    (hpv : ∀ v, ∃ q,
        runValidation v (handleCfg root req cust).1.route.validateParams = Except.ok q)
    (hsome : (handleRun root req cust fuel).isSome = true) :
    (handleRun root req cust fuel).map (fun p => p.1.log.filter evIsMwH) =
      some ((List.range (handleCfg root req cust).1.mws.length).map Ev.mw ++ [Ev.handler]) := by
  rcases hrun : handleRun root req cust fuel with _ | p
  · rw [hrun] at hsome
    cases hsome
  · obtain ⟨st', r⟩ := p
    obtain ⟨hf, _, _⟩ := chainClean (handleCfg root req cust).1 hmw hqv hpv fuel
      (initSt (handleCfg root req cust).1) st' r (Nat.zero_le _) rfl hrun
    simp only [Option.map]
    congr 1
    rw [hf]
    simp [initSt, List.range_eq_range']

/-- Demonstration app for the ordering claim: a middleware that awaits
`next()` and returns the response, a middleware that falls through with
a falsy value, and a terminal handler that throws. -/
def orderApp : AppT :=
  .node 0 [] none
    [fun _ => .callNext (fun r => .done (.ok (.resp r))),
     fun _ => .done (.ok (.val .undef))]
    [] [{ method := "GET", path := "/t".data,
          handler := fun _ => .throw (.exn { message := "boom" }) }]
    (.obj []) []

/-- The request used against `orderApp`. -/
def orderReq : Req := { method := "GET", pathname := "/t".data }

/-- Witness for C2 at a concrete app with a throwing terminal handler. -/
theorem c2_witness :
    (handleRun orderApp orderReq none 20).map (fun p => p.1.log.filter evIsMwH) =
      some ((List.range (handleCfg orderApp orderReq none).1.mws.length).map Ev.mw ++
        [Ev.handler]) := by
  refine c2_middleware_order orderApp orderReq none 20 ?_ ?_ ?_ (by decide)
  · intro i hi c
    have hl : (handleCfg orderApp orderReq none).1.mws.length = 2 := by decide
    match i with
    | 0 => exact trivial
    | 1 => exact rfl
    | n + 2 =>
        rw [hl] at hi
        omega
  · intro v
    exact ⟨v, rfl⟩
  · intro v
    exact ⟨v, rfl⟩

/-- C9: when the handler's incremental producer is already finished after
the first eager pull (`init.done`) having only returned the plain value
`v`, `handleStream` returns a single immediate response whose entire
body is the text `event: message\ndata: <serialized v>\n\nevent: done\n\n`
— a plain (non-stream) body with no `transfer-encoding: chunked` header,
so no chunked transport is used; this holds for every finishing value,
in particular every non-empty one. -/
theorem c9_stream_done_shortcut (v : JVal) (errHs : List ErrH) :
    handleStream { yields := [], ret := v } errHs =
      { status := 200,
        headers := [("Content-Type", "text/event-stream"), ("Cache-Control", "no-cache")],
        body := .text ("event: message\ndata: " ++ serializeJ v ++ "\n\nevent: done\n\n") } := by
  simp only [handleStream, messageFrame]
  rw [String.append_assoc]
  rfl

/-- C10: an error handler that returns a promise of a `Response` never
counts as having handled the error — `runErrorHandlers` checks each
handler's immediate return value with `isResponse` without awaiting, so
a promise-returning handler is skipped and the loop moves on; when every
registered handler is asynchronous (promise-returning) and the handler
list is non-empty, `getResForError` falls through to the default
serialized-error response with status `error.status ?? 500`, every
handler having been invoked, and nothing is logged to the console (the
`console.error` path runs only for an empty handler list). -/
theorem c10_async_error_handlers (hs : List ErrH) (ed : ErrData) (log : List Ev)
    (hne : hs ≠ [])
    (hasync : ∀ h ∈ hs, ∃ r, h ed = ErrHRet.promise r) :
    getResForError hs (.exn ed) log =
      (log ++ (List.range hs.length).map Ev.errH, defaultErrResp ed) ∧
    (Ev.consoleErr ∈ (getResForError hs (.exn ed) log).1 ↔ Ev.consoleErr ∈ log) := by
  have haux : ∀ (l : List ErrH) (i : Nat) (lg : List Ev), (∀ h ∈ l, ∃ r, h ed = ErrHRet.promise r) →
      runErrorHandlersAux ed l i lg = (lg ++ (List.range' i l.length).map Ev.errH, none) := by
    intro l
    induction l with
    | nil => intro i lg _; simp [runErrorHandlersAux]
    | cons h rest ih =>
        intro i lg hall
        obtain ⟨r, hr⟩ := hall h (by simp)
        simp only [runErrorHandlersAux, hr]
        rw [ih (i + 1) (lg ++ [Ev.errH i]) (fun h hm => hall h (by simp [hm]))]
        simp [List.length_cons, List.range'_succ]
  have hmain : getResForError hs (.exn ed) log =
      (log ++ (List.range hs.length).map Ev.errH, defaultErrResp ed) := by
    simp only [getResForError, runErrorHandlers]
    rw [if_neg (by simpa [List.isEmpty_iff] using hne)]
    rw [haux hs 0 log hasync]
    rw [List.range_eq_range']
  refine ⟨hmain, ?_⟩
  rw [hmain]
  simp

/-- Concrete asynchronous error handlers for the C10 witness. -/
def asyncHandlers : List ErrH :=
  [fun _ => .promise { status := 200, body := .text "late" },
   fun _ => .promise { status := 201, body := .text "later" }]

/-- Witness for C10: two promise-returning handlers, a plain error with
no status field — the result is the default 500 serialized-error
response, both handlers invoked, no console logging. -/
theorem c10_witness :
    getResForError asyncHandlers (.exn { message := "boom" }) [] =
      ([] ++ (List.range asyncHandlers.length).map Ev.errH,
        defaultErrResp { message := "boom" }) ∧
    (Ev.consoleErr ∈ (getResForError asyncHandlers (.exn { message := "boom" }) []).1 ↔
      Ev.consoleErr ∈ ([] : List Ev)) := by
  refine c10_async_error_handlers asyncHandlers { message := "boom" } [] (by simp [asyncHandlers]) ?_
  intro h hm
  simp [asyncHandlers] at hm
  rcases hm with rfl | rfl
  · exact ⟨_, rfl⟩
  · exact ⟨_, rfl⟩

/-- The per-node success test of the breadth-first search inside `match`:
true iff visiting node `a` produces a result (an exact method match, or
the HEAD→GET fallback) instead of continuing the search. -/
def nodeMatches (root : AppT) (method : String) (path : Str) (a : AppT) : Bool :=
  if nodePre root a ≠ [] ∧ ¬ (nodePre root a <+: path) then false
  else
    match routerFind a.routes (nodeSubPath (nodePre root a) path) with
    | none => false
    | some store =>
        match storeGet store method with
        | some _ => true
        | none => if method == "HEAD" then (storeGet store "GET").isSome else false

/-- Whether some node of the tree resolves the method+path pair. -/
def anyRouteMatches (root : AppT) (method : String) (path : Str) : Bool :=
  (bfs root).any (nodeMatches root method path)

/-- When no visited node matches, the search falls through to the
synthesized `notFoundHandler` route (on the closest remembered app, or
the root). -/
theorem matchGo_noMatch (root : AppT) (method : String) (path : Str) :
    ∀ (n : Nat) (q : List AppT), szList q ≤ n → ∀ (fApp : Option AppT),
      (∀ a ∈ bfsAux q, nodeMatches root method path a = false) →
      ∃ b, matchGo root method path q fApp =
        { app := b,
          internalRoute := { method := method, path := path, handler := notFoundHandler },
          params := .obj [] } := by
  intro n
  induction n with
  | zero =>
      intro q hq fApp _
      cases q with
      | nil => exact ⟨fApp.getD root, by rw [matchGo]⟩
      | cons a rest =>
          have := sz_pos a
          simp [szList] at hq
          omega
  | succ n ih =>
      intro q hq fApp hnm
      cases q with
      | nil => exact ⟨fApp.getD root, by rw [matchGo]⟩
      | cons a rest =>
          have hsz : szList (rest ++ a.children) ≤ n := by
            have := szList_children a
            rw [szList_append]
            simp [szList] at hq
            omega
          have htail : ∀ x ∈ bfsAux (rest ++ a.children),
              nodeMatches root method path x = false := by
            intro x hx
            refine hnm x ?_
            rw [bfsAux]
            exact List.mem_cons_of_mem a hx
          have hna : nodeMatches root method path a = false := by
            refine hnm a ?_
            rw [bfsAux]
            exact List.mem_cons_self a _
          rw [matchGo]
          unfold nodeMatches at hna
          by_cases hpre : nodePre root a ≠ [] ∧ ¬ (nodePre root a <+: path)
          · rw [if_pos hpre]
            exact ih _ hsz fApp htail
          · rw [if_neg hpre]
            rw [if_neg hpre] at hna
            rcases hrf : routerFind a.routes (nodeSubPath (nodePre root a) path) with _ | store
            · exact ih _ hsz (some a) htail
            · rw [hrf] at hna
              dsimp only at hna
              dsimp only
              rcases hsg : storeGet store method with _ | r
              · rw [hsg] at hna
                dsimp only at hna
                by_cases hh : (method == "HEAD") = true
                · rw [if_pos hh] at hna
                  rw [if_pos hh]
                  rcases hgg : storeGet store "GET" with _ | g
                  · exact ih _ hsz fApp htail
                  · rw [hgg] at hna
                    simp at hna
                · rw [if_neg hh]
                  exact ih _ hsz fApp htail
              · rw [hsg] at hna
                simp at hna

/-- A tree is a member of its own breadth-first traversal. -/
theorem mem_bfs_self (t : AppT) : t ∈ bfs t := by
  rw [bfs_eq, bfsAux]
  exact List.mem_cons_self _ _

/-- Every app in scope is a node of the tree. -/
theorem appsInScope_mem_bfs (root cur : AppT) :
    ∀ x ∈ getAppsInScope root cur, x ∈ bfs root := by
  intro x hx
  simp only [getAppsInScope] at hx
  by_cases h : root.children.isEmpty = true
  · rw [if_pos h] at hx
    simp at hx
    rw [hx]
    exact mem_bfs_self root
  · rw [if_neg h] at hx
    exact (List.mem_filter.mp hx).1

/-- `match` on a request that no node resolves returns the synthesized
404 route. -/
theorem matchRoute_noMatch (root : AppT) (method : String) (path : Str)
    (h : anyRouteMatches root method (normPath path) = false) :
    ∃ b, matchRoute root method path =
      { app := b,
        internalRoute :=
          { method := method, path := normPath path, handler := notFoundHandler },
        params := .obj [] } := by
  rw [matchRoute_eq]
  refine matchGo_noMatch root method (normPath path) (szList [root]) [root] le_rfl none ?_
  intro a ha
  have hmem : a ∈ bfs root := by
    rw [bfs_eq]
    exact ha
  cases hcase : nodeMatches root method (normPath path) a with
  | false => rfl
  | true =>
      exfalso
      unfold anyRouteMatches at h
      have hany : (bfs root).any (nodeMatches root method (normPath path)) = true :=
        List.any_eq_true.mpr ⟨a, hmem, hcase⟩
      rw [hany] at h
      simp at h

/-- A run on a middleware-free tree with an unresolvable method+path pair
completes with the synthesized 404 "Not Found" response, invoking no
error handler and logging nothing to the console. -/
theorem handleRun_noMatch (root : AppT) (req : Req) (cust : Option JVal) (fuel : Nat)
    (hnm : anyRouteMatches root req.method (normPath req.pathFull) = false)
    (hmw : ∀ a ∈ bfs root, a.mws = []) :
    ∃ st', handleRun root req cust (fuel + 1) =
        some (st', { status := 404, statusText := "", headers := [],
                     body := RBody.text "Not Found" }) ∧
      (∀ i, Ev.errH i ∉ st'.log) ∧ Ev.consoleErr ∉ st'.log := by
  obtain ⟨b, hm⟩ := matchRoute_noMatch root req.method req.pathFull hnm
  have hroute : (handleCfg root req cust).1.route =
      { method := req.method, path := normPath req.pathFull, handler := notFoundHandler } := by
    simp only [handleCfg]
    rw [hm]
  have hmws0 : (handleCfg root req cust).1.mws = [] := by
    simp only [handleCfg]
    rw [List.flatten_eq_nil_iff]
    intro x hx
    rw [List.mem_map] at hx
    obtain ⟨a, ha, rfl⟩ := hx
    exact hmw a (appsInScope_mem_bfs root _ a ha)
  refine ⟨{ index := 0,
            handlerResponse := some { status := 404, statusText := "", headers := [],
                                      body := RBody.text "Not Found" },
            query := (handleCfg root req cust).1.baseCtx.query,
            params := (handleCfg root req cust).1.baseCtx.params,
            log := [Ev.handler] }, ?_, ?_, ?_⟩
  · unfold handleRun
    rw [nextFn]
    rw [dif_neg (by rw [hmws0]; simp [initSt])]
    have htail : tailStep (handleCfg root req cust).1 (initSt (handleCfg root req cust).1) =
        .done { index := 0,
                handlerResponse := some { status := 404, statusText := "", headers := [],
                                          body := RBody.text "Not Found" },
                query := (handleCfg root req cust).1.baseCtx.query,
                params := (handleCfg root req cust).1.baseCtx.params,
                log := [Ev.handler] }
          { status := 404, statusText := "", headers := [], body := RBody.text "Not Found" } := by
      unfold tailStep initSt
      rw [hroute]
      rfl
    rw [htail]
  · intro i
    simp
  · simp

/-- C4: for every request whose method and path are resolved by no node
of the tree (no registered route matches anywhere), a `handle()` call on
an app tree without middlewares returns the synthesized 404 response with
body "Not Found", and no `onError` handler is invoked during the request
(no error-handler event — and no console-error event — appears in the
run's log): the not-found case flows through the normal response path,
not through the error machinery. -/
theorem c4_not_found (root : AppT) (req : Req) (cust : Option JVal) (fuel : Nat)
    (hnm : anyRouteMatches root req.method (normPath req.pathFull) = false)
    (hmw : ∀ a ∈ bfs root, a.mws = []) :
    ∃ st', handleRun root req cust (fuel + 1) =
        some (st', { status := 404, statusText := "", headers := [],
                     body := RBody.text "Not Found" }) ∧
      (∀ i, Ev.errH i ∉ st'.log) ∧ Ev.consoleErr ∉ st'.log :=
  handleRun_noMatch root req cust fuel hnm hmw

/-- App for the C4 witness, mirroring the repository's "onError does not
fire on 404" test: one registered route, one `onError` handler, no
middlewares. -/
def notFoundApp : AppT :=
  .node 0 [] none []
    [fun _ => .resp { status := 500, body := .text "Error handled" }]
    [{ method := "GET", path := "/test".data, handler := fun _ => .val (.str "Hello World") }]
    (.obj []) []

/-- The unmatched request used against `notFoundApp`. -/
def notFoundReq : Req := { method := "GET", pathname := "/non-existent".data }

/-- Witness for C4: the unmatched request against the concrete app gets
the 404 "Not Found" response and its log holds no error-handler and no
console event. -/
theorem c4_witness :
    ∃ st', handleRun notFoundApp notFoundReq none 3 =
        some (st', { status := 404, statusText := "", headers := [],
                     body := RBody.text "Not Found" }) ∧
      (∀ i, Ev.errH i ∉ st'.log) ∧ Ev.consoleErr ∉ st'.log := by
  refine c4_not_found notFoundApp notFoundReq none 2 (by decide) ?_
  intro a ha
  have hb : bfs notFoundApp = [notFoundApp] := rfl
  rw [hb] at ha
  simp at ha
  subst ha
  rfl

/-- The GET route used by the C7 counterexample and witness. -/
def headGetRoute : Route :=
  { method := "GET", path := "/v".data, handler := fun _ => .val (.str "x") }

/-- App with one GET route and no HEAD route, for the C7 counterexample
and witness. -/
def headApp : AppT :=
  .node 0 [] none [] [] [headGetRoute] (.obj []) []

/-- C7 counterexample: the claim "handle() returns a response with the
GET route's status and headers" is false as stated. On `headApp` the GET
route returns the plain value "x": the GET response carries the
serializer's `content-type: application/json` header, while the HEAD
response to the same path is the wrapper's bare `new Response(null,
{ status: 200 })` with NO headers — the GET response's headers are not
preserved when the GET handler returns a plain value rather than a
`Response`. -/
theorem c7_counterexample :
    (handleRun headApp { method := "GET", pathname := "/v".data } none 2).map
        (fun p => (p.2.status, p.2.headers)) =
      some (200, [("content-type", "application/json")]) ∧
    (handleRun headApp { method := "HEAD", pathname := "/v".data } none 2).map
        (fun p => (p.2.status, p.2.headers)) =
      some (200, ([] : List (String × String))) := by
  constructor
  · decide
  · decide

/-- C7 (amended): a HEAD request to a path holding a GET route but no
HEAD route is answered through a synthesized wrapper route (method HEAD,
the request path, `headWrapHandler` around the GET route — built fresh at
match time, not drawn from any route table, whose HEAD slot is empty by
hypothesis): (1) when the GET handler returns a `Response`, the wrapper
returns its status, statusText and headers with an emptied `""` body;
(2) when the GET handler returns a plain value, the wrapper returns a
bare 200 with no headers and a null body (the GET response's headers are
NOT preserved in that case); (3) the breadth-first search resolves such a
node to exactly that wrapper route; and (4) when no node resolves the
HEAD request even through the GET fallback, a middleware-free tree
answers 404 "Not Found". -/
theorem c7_head_get_fallback :
    (∀ (g : Route) (c : Ctx) (r : Resp), g.handler c = .resp r →
        headWrapHandler g c =
          .resp { status := r.status, statusText := r.statusText, headers := r.headers,
                  body := RBody.text "" }) ∧
    (∀ (g : Route) (c : Ctx) (v : JVal), g.handler c = .val v →
        headWrapHandler g c =
          .resp { status := 200, statusText := "", headers := [], body := RBody.empty }) ∧
    (∀ (root a : AppT) (rest : List AppT) (fApp : Option AppT) (path : Str)
        (store : List Route) (g : Route),
        ¬ (nodePre root a ≠ [] ∧ ¬ (nodePre root a <+: path)) →
        routerFind a.routes (nodeSubPath (nodePre root a) path) = some store →
        storeGet store "HEAD" = none →
        storeGet store "GET" = some g →
        matchGo root "HEAD" path (a :: rest) fApp =
          { app := a,
            internalRoute := { method := "HEAD", path := path, handler := headWrapHandler g },
            params := .obj [] }) ∧
    (∀ (root : AppT) (req : Req) (cust : Option JVal) (fuel : Nat),
        req.method = "HEAD" →
        anyRouteMatches root "HEAD" (normPath req.pathFull) = false →
        (∀ a ∈ bfs root, a.mws = []) →
        ∃ st', handleRun root req cust (fuel + 1) =
          some (st', { status := 404, statusText := "", headers := [],
                       body := RBody.text "Not Found" })) := by
  refine ⟨?_, ?_, ?_, ?_⟩
  · intro g c r hgc
    unfold headWrapHandler
    rw [hgc]
  · intro g c v hgc
    unfold headWrapHandler
    rw [hgc]
  · intro root a rest fApp path store g h1 h2 h3 h4
    rw [matchGo]
    rw [if_neg h1]
    rw [h2]
    dsimp only
    rw [h3]
    dsimp only
    rw [if_pos (by rfl)]
    rw [h4]
  · intro root req cust fuel hmeth hnm hmw
    obtain ⟨st', hrun, _, _⟩ :=
      handleRun_noMatch root req cust fuel (by rw [hmeth]; exact hnm) hmw
    exact ⟨st', hrun⟩

/-- A GET route whose handler returns an already-built `Response`, for
the C7 witness. -/
def headGetRespRoute : Route :=
  { method := "GET", path := "/w".data,
    handler := fun _ =>
      .resp { status := 307, statusText := "Temporary Redirect",
              headers := [("location", "http://example.com")], body := .text "Redirect" } }

/-- Witness for the amended C7: all four conjuncts applied at concrete
inputs — a `Response`-returning GET route (status/statusText/headers
kept, body emptied), the plain-value GET route (bare 200, no headers),
the concrete one-node tree resolving a HEAD request to the synthesized
wrapper, and a HEAD request no node resolves answered 404. -/
theorem c7_witness :
    headWrapHandler headGetRespRoute {} =
      .resp { status := 307, statusText := "Temporary Redirect",
              headers := [("location", "http://example.com")], body := RBody.text "" } ∧
    headWrapHandler headGetRoute {} =
      .resp { status := 200, statusText := "", headers := [], body := RBody.empty } ∧
    matchGo headApp "HEAD" "/v".data [headApp] none =
      { app := headApp,
        internalRoute :=
          { method := "HEAD", path := "/v".data, handler := headWrapHandler headGetRoute },
        params := .obj [] } ∧
    ∃ st', handleRun headApp { method := "HEAD", pathname := "/nope".data } none 3 =
      some (st', { status := 404, statusText := "", headers := [],
                   body := RBody.text "Not Found" }) := by
  refine ⟨c7_head_get_fallback.1 headGetRespRoute {} _ rfl,
          c7_head_get_fallback.2.1 headGetRoute {} (.str "x") rfl,
          c7_head_get_fallback.2.2.1 headApp headApp [] none "/v".data [headGetRoute]
            headGetRoute (by decide) rfl rfl rfl,
          c7_head_get_fallback.2.2.2 headApp { method := "HEAD", pathname := "/nope".data }
            none 2 rfl (by decide) ?_⟩
  intro a ha
  have hb : bfs headApp = [headApp] := rfl
  rw [hb] at ha
  simp at ha
  rw [ha]
  rfl

/-- A failing validator throws the `ValidationError` built from the
rendered issues (with the "Validation failed" fallback). -/
theorem runValidation_fail (v : JVal) (val : Validator) (h : (val v).issues ≠ []) :
    runValidation v (some val) =
      .error (.exn (validationError
        (if renderIssues (val v).issues = "" then "Validation failed"
         else renderIssues (val v).issues))) := by
  simp only [runValidation]
  rw [if_pos h]

/-- A validator reporting two issues, for the C8 counterexample. -/
def twoIssueValidator : Validator := fun _ =>
  { issues := [{ path := ["a"], message := "m1" }, { path := ["b"], message := "m2" }] }

/-- C8 counterexample: the issues are NOT rendered as
`"<field>: <issue>; ..."`. The source joins the rendered issues with
`.join("\\n")` — the two-character sequence backslash-n — so two issues
`a: m1` and `b: m2` produce the message `a: m1\nb: m2` (with a literal
backslash), which differs from the claimed `a: m1; b: m2`. -/
theorem c8_counterexample :
    runValidation (.obj []) (some twoIssueValidator) =
      .error (.exn { code := some "VALIDATION", status := some 422,
                     message := "a: m1\\nb: m2" }) ∧
    "a: m1\\nb: m2" ≠ "a: m1; b: m2" := by
  constructor
  · rfl
  · decide

/-- C8 (amended): (1) for every value and declared validator reporting a
non-empty issues list, `runValidation` throws the `ValidationError` whose
message renders each issue as `<path joined with .>: <message>` (path
prefix omitted when the path is empty), the issues joined by the
two-character sequence backslash-n, falling back to "Validation failed"
on an empty rendering; (2) the resulting default error response has
status 422 and the body `{"code":"VALIDATION","status":422,"message":…}`;
(3) end to end, on a middleware-free tree with no error handlers, a
request whose matched route's query validator fails aborts — the route
handler is never invoked, the run's log being exactly the console record
— with exactly that 422 response. -/
theorem c8_validation_422 :
    (∀ (v : JVal) (val : Validator), (val v).issues ≠ [] →
        runValidation v (some val) =
          .error (.exn (validationError
            (if renderIssues (val v).issues = "" then "Validation failed"
             else renderIssues (val v).issues)))) ∧
    (∀ msg, (defaultErrResp (validationError msg)).status = 422 ∧
        (defaultErrResp (validationError msg)).body =
          RBody.text (serializeJ (.obj
            [("code", .str "VALIDATION"), ("status", .num 422),
             ("message", .str (if msg = "" then "Internal Server Error" else msg))]))) ∧
    (∀ (root : AppT) (req : Req) (cust : Option JVal) (val : Validator) (fuel : Nat),
        (handleCfg root req cust).1.route.validateQuery = some val →
        (val (handleCfg root req cust).1.baseCtx.query).issues ≠ [] →
        (∀ a ∈ bfs root, a.mws = []) →
        (∀ a ∈ bfs root, a.errHs = []) →
        ∃ st', handleRun root req cust (fuel + 2) =
            some (st',
              { status := 422, statusText := "",
                headers := [("content-type", "application/json")],
                body := RBody.text (serializeErrBody (validationError
                  (if renderIssues (val (handleCfg root req cust).1.baseCtx.query).issues = ""
                   then "Validation failed"
                   else renderIssues
                     (val (handleCfg root req cust).1.baseCtx.query).issues))) }) ∧
          st'.log = [Ev.consoleErr]) := by
  refine ⟨fun v val h => runValidation_fail v val h, fun msg => ⟨rfl, rfl⟩, ?_⟩
  intro root req cust val fuel hq hfail hmw herr
  have hmws0 : (handleCfg root req cust).1.mws = [] := by
    simp only [handleCfg]
    rw [List.flatten_eq_nil_iff]
    intro x hx
    rw [List.mem_map] at hx
    obtain ⟨a, ha, rfl⟩ := hx
    exact hmw a (appsInScope_mem_bfs root _ a ha)
  have herrHs0 : (handleCfg root req cust).1.errHs = [] := by
    simp only [handleCfg]
    rw [List.flatten_eq_nil_iff]
    intro x hx
    rw [List.mem_map] at hx
    obtain ⟨a, ha, rfl⟩ := hx
    exact herr a (appsInScope_mem_bfs root _ a ha)
  refine ⟨{ index := 0,
            handlerResponse := some (defaultErrResp (validationError
              (if renderIssues (val (handleCfg root req cust).1.baseCtx.query).issues = ""
               then "Validation failed"
               else renderIssues (val (handleCfg root req cust).1.baseCtx.query).issues))),
            query := (handleCfg root req cust).1.baseCtx.query,
            params := (handleCfg root req cust).1.baseCtx.params,
            log := [Ev.consoleErr] }, ?_, rfl⟩
  unfold handleRun
  rw [nextFn]
  rw [dif_neg (by rw [hmws0]; simp [initSt])]
  have htail : tailStep (handleCfg root req cust).1 (initSt (handleCfg root req cust).1) =
      .caught (initSt (handleCfg root req cust).1)
        (.exn (validationError
          (if renderIssues (val (handleCfg root req cust).1.baseCtx.query).issues = ""
           then "Validation failed"
           else renderIssues (val (handleCfg root req cust).1.baseCtx.query).issues))) := by
    unfold tailStep initSt
    dsimp only
    rw [hq]
    rw [runValidation_fail _ val hfail]
  rw [htail]
  dsimp only
  have hst2 : getResStep (handleCfg root req cust).1
      (.exn (validationError
        (if renderIssues (val (handleCfg root req cust).1.baseCtx.query).issues = ""
         then "Validation failed"
         else renderIssues (val (handleCfg root req cust).1.baseCtx.query).issues)))
      (initSt (handleCfg root req cust).1) =
      { index := 0,
        handlerResponse := some (defaultErrResp (validationError
          (if renderIssues (val (handleCfg root req cust).1.baseCtx.query).issues = ""
           then "Validation failed"
           else renderIssues (val (handleCfg root req cust).1.baseCtx.query).issues))),
        query := (handleCfg root req cust).1.baseCtx.query,
        params := (handleCfg root req cust).1.baseCtx.params,
        log := [Ev.consoleErr] } := by
    unfold getResStep initSt
    rw [herrHs0]
    rfl
  rw [hst2]
  rw [nextFn]
  rw [dif_neg (by rw [hmws0]; simp)]
  rfl

/-- The one-issue query validator used by the C8 witness, reporting the
repository test's `requiredField: Required` issue. -/
def failValidator : Validator := fun _ =>
  { issues := [{ path := ["requiredField"], message := "Required" }] }

/-- App with a route whose query validator always fails, for the C8
witness. -/
def valApp : AppT :=
  .node 0 [] none [] []
    [{ method := "GET", path := "/q".data, handler := fun _ => .val (.str "ok"),
       validateQuery := some failValidator }]
    (.obj []) []

/-- The request used against `valApp`. -/
def valReq : Req := { method := "GET", pathname := "/q".data }

/-- Witness for the amended C8: the failing one-issue validator throws
the rendered `ValidationError`, and the request against the concrete app
gets the 422 serialized-error response, the handler never running. -/
theorem c8_witness :
    runValidation (.obj []) (some failValidator) =
      .error (.exn (validationError
        (if renderIssues (failValidator (.obj [])).issues = "" then "Validation failed"
         else renderIssues (failValidator (.obj [])).issues))) ∧
    ∃ st', handleRun valApp valReq none 3 =
        some (st',
          { status := 422, statusText := "",
            headers := [("content-type", "application/json")],
            body := RBody.text (serializeErrBody (validationError
              (if renderIssues (failValidator (handleCfg valApp valReq none).1.baseCtx.query).issues = ""
               then "Validation failed"
               else renderIssues
                 (failValidator (handleCfg valApp valReq none).1.baseCtx.query).issues))) }) ∧
      st'.log = [Ev.consoleErr] := by
  refine ⟨c8_validation_422.1 (.obj []) failValidator (by decide),
          c8_validation_422.2.2 valApp valReq none failValidator 1 rfl (by decide) ?_ ?_⟩
  · intro a ha
    have hb : bfs valApp = [valApp] := rfl
    rw [hb] at ha
    simp at ha
    rw [ha]
    rfl
  · intro a ha
    have hb : bfs valApp = [valApp] := rfl
    rw [hb] at ha
    simp at ha
    rw [ha]
    rfl

/-- Characters of the normalized path come from the original path, save
for the "/" default. -/
theorem mem_normPath (p : Str) (c : Char) (hc : c ∈ normPath p) : c = '/' ∨ c ∈ p := by
  simp only [normPath, stripTrailingSlash] at hc
  by_cases h1 : p.getLast? = some '/'
  · rw [if_pos h1] at hc
    by_cases h2 : p.dropLast = []
    · rw [if_pos h2] at hc
      simp at hc
      exact Or.inl hc
    · rw [if_neg h2] at hc
      exact Or.inr ((List.dropLast_prefix p).subset hc)
  · rw [if_neg h1] at hc
    by_cases h2 : p = []
    · rw [if_pos h2] at hc
      simp at hc
      exact Or.inl hc
    · rw [if_neg h2] at hc
      exact Or.inr hc

/-- On a path without a query marker, the router's query-string cut is
the identity. -/
theorem takeWhile_no_qmark (l : Str) (h : '?' ∉ l) :
    l.takeWhile (fun c => c ≠ '?') = l := by
  induction l with
  | nil => rfl
  | cons a t ih =>
      have ha : a ≠ '?' := fun e => h (by rw [e]; exact List.mem_cons_self _ _)
      have ht : '?' ∉ t := fun hm => h (List.mem_cons_of_mem a hm)
      simp [List.takeWhile_cons, ha]
      intro x hx e
      exact ht (e ▸ hx)

/-- The `/c` route of the C6 tree, marked by its declared type so that it
is distinguishable from the synthesized fallback route. -/
def c6route : Route :=
  { method := "GET", path := "/c".data, rtype := "c6route",
    handler := fun _ => .val (.str "c") }

/-- Child app with basePath `/b` and route `/c`. -/
def c6child : AppT := .node 1 "/b".data none [] [] [c6route] (.obj []) []

/-- Root app with basePath `/a` containing `c6child`. -/
def c6root : AppT := .node 0 "/a".data none [] [] [] (.obj []) [c6child]

/-- C6: nested prefixes compose by concatenation along the ancestor
chain. In the tree with root basePath `/a` and child basePath `/b`
holding route `/c`, the request path `/a/b/c` matches exactly that
route on the child app; and for every request path without a query
marker, the `/c` route is matched (the `match` result's route is the
one marked `c6route`) exactly when the path normalizes (one trailing
slash stripped) to `/a/b/c` — no other path matches it. -/
theorem c6_prefix_composition :
    matchRoute c6root "GET" ("/a/b/c".data) =
      { app := c6child, internalRoute := c6route, params := .obj [] } ∧
    ∀ p : Str, '?' ∉ p →
      ((matchRoute c6root "GET" p).internalRoute.rtype = "c6route" ↔
        normPath p = "/a/b/c".data) := by
  constructor
  · rfl
  · intro p hq
    have hq0 : '?' ∉ normPath p := by
      intro hc
      rcases mem_normPath p '?' hc with h | h
      · exact absurd h (by decide)
      · exact hq h
    obtain ⟨q, hqq, hq'⟩ : ∃ q, normPath p = q ∧ '?' ∉ q := ⟨normPath p, rfl, hq0⟩
    unfold matchRoute
    rw [hqq]
    have hfb : ∀ fApp : Option AppT,
        (matchGoF c6root "GET" q 0 [] fApp).internalRoute.rtype = "" := fun fApp => rfl
    have step2 : ∀ fApp : Option AppT,
        ((matchGoF c6root "GET" q (0 + 1) [c6child] fApp).internalRoute.rtype = "c6route" ↔
          q = "/a/b/c".data) := by
      intro fApp
      rw [matchGoF]
      rw [show nodePre c6root c6child = "/a/b".data from rfl]
      by_cases h2 : ("/a/b".data : Str) <+: q
      · rw [if_neg (fun hc => hc.2 h2)]
        obtain ⟨t, ht⟩ := h2
        have hsub : nodeSubPath "/a/b".data q = if t = [] then ['/'] else t := by
          simp only [nodeSubPath]
          rw [if_pos (show ("/a/b".data : Str) ≠ [] by decide)]
          have hdrop : q.drop ("/a/b".data).length = t := by
            rw [← ht]
            exact List.drop_left _ _
          rw [hdrop]
        rw [hsub]
        by_cases h3 : t = "/c".data
        · subst h3
          rw [if_neg (show ("/c".data : Str) ≠ [] by decide)]
          rw [show routerFind (AppT.routes c6child) ("/c".data) = some [c6route] from rfl]
          dsimp only
          rw [show storeGet [c6route] "GET" = some c6route from rfl]
          constructor
          · intro _
            rw [← ht]
            decide
          · intro _
            rfl
        · have habs : q = "/a/b/c".data → False := by
            intro habs
            apply h3
            have hcat : "/a/b".data ++ t = "/a/b".data ++ "/c".data := by
              rw [ht, habs]
              decide
            exact List.append_cancel_left hcat
          by_cases h4 : t = []
          · subst h4
            rw [if_pos rfl]
            rw [show routerFind (AppT.routes c6child) (['/'] : Str) = none from rfl]
            dsimp only
            rw [show ([] : List AppT) ++ AppT.children c6child = [] from rfl]
            rw [hfb (some c6child)]
            constructor
            · intro h
              exact absurd h (by decide)
            · intro h
              exact absurd h habs
          · rw [if_neg h4]
            have htq : '?' ∉ t := fun hm => hq' (by rw [← ht]; exact List.mem_append_right _ hm)
            have hrn : routerFind (AppT.routes c6child) t = none := by
              rw [show AppT.routes c6child = [c6route] from rfl]
              simp only [routerFind]
              rw [takeWhile_no_qmark t htq]
              have hbeq : (c6route.path == t) = false := by
                rw [beq_eq_false_iff_ne]
                intro e
                exact h3 e.symm
              simp [List.filter_cons, hbeq]
            rw [hrn]
            dsimp only
            rw [show ([] : List AppT) ++ AppT.children c6child = [] from rfl]
            rw [hfb (some c6child)]
            constructor
            · intro h
              exact absurd h (by decide)
            · intro h
              exact absurd h habs
      · rw [if_pos ⟨by decide, h2⟩]
        rw [show ([] : List AppT) ++ AppT.children c6child = [] from rfl]
        rw [hfb fApp]
        constructor
        · intro h
          exact absurd h (by decide)
        · intro h
          exfalso
          apply h2
          rw [h]
          exact ⟨"/c".data, by decide⟩
    rw [show AppT.sz c6root = 0 + 1 + 1 from rfl]
    rw [matchGoF]
    rw [show nodePre c6root c6root = "/a".data from rfl]
    by_cases h1 : ("/a".data : Str) <+: q
    · rw [if_neg (fun hc => hc.2 h1)]
      rw [show ∀ x : Str, routerFind (AppT.routes c6root) x = none from fun x => rfl]
      dsimp only
      rw [show ([] : List AppT) ++ AppT.children c6root = [c6child] from rfl]
      exact step2 (some c6root)
    · rw [if_pos ⟨by decide, h1⟩]
      rw [show ([] : List AppT) ++ AppT.children c6root = [c6child] from rfl]
      exact step2 none

/-- Witness for C6: the trailing-slash path `/a/b/c/` has no query
marker, and the theorem's characterization applies to it (it normalizes
to `/a/b/c`, hence matches). -/
theorem c6_witness :
    ('?' ∉ "/a/b/c/".data) ∧
    ((matchRoute c6root "GET" ("/a/b/c/".data)).internalRoute.rtype = "c6route" ↔
      normPath "/a/b/c/".data = "/a/b/c".data) :=
  ⟨by decide, c6_prefix_composition.2 "/a/b/c/".data (by decide)⟩

mutual
/-- All nodes of a tree, root first (spec-side structural traversal used
to reason about the breadth-first order). -/
def allNodes : AppT → List AppT
  | .node aid pre sc mws ehs rts ds cs => .node aid pre sc mws ehs rts ds cs :: allNodesList cs

/-- All nodes of a forest. -/
def allNodesList : List AppT → List AppT
  | [] => []
  | a :: as => allNodes a ++ allNodesList as
end

theorem allNodes_eq (t : AppT) : allNodes t = t :: allNodesList t.children := by
  cases t
  rfl

theorem allNodesList_append (l1 l2 : List AppT) :
    allNodesList (l1 ++ l2) = allNodesList l1 ++ allNodesList l2 := by
  induction l1 with
  | nil => rfl
  | cons a as ih => simp [allNodesList, ih]

/-- The breadth-first traversal is a permutation of the structural
traversal. -/
theorem bfsAux_perm : ∀ (n : Nat) (q : List AppT), szList q ≤ n →
    List.Perm (bfsAux q) (allNodesList q) := by
  intro n
  induction n with
  | zero =>
      intro q hq
      cases q with
      | nil => simp [bfsAux, allNodesList]
      | cons a rest =>
          have := sz_pos a
          simp [szList] at hq
          omega
  | succ n ih =>
      intro q hq
      cases q with
      | nil => simp [bfsAux, allNodesList]
      | cons a rest =>
          have hsz : szList (rest ++ a.children) ≤ n := by
            have := szList_children a
            rw [szList_append]
            simp [szList] at hq
            omega
          rw [bfsAux]
          refine ((ih _ hsz).cons a).trans ?_
          rw [allNodesList_append]
          rw [show allNodesList (a :: rest) = allNodes a ++ allNodesList rest from rfl]
          rw [allNodes_eq a]
          exact List.perm_append_comm.cons a

theorem bfs_perm (t : AppT) : List.Perm (bfs t) (allNodes t) := by
  rw [bfs_eq]
  have h := bfsAux_perm (szList [t]) [t] le_rfl
  simpa [allNodesList] using h

theorem bfsAux_length : ∀ (n : Nat) (q : List AppT), szList q ≤ n →
    (bfsAux q).length = szList q := by
  intro n
  induction n with
  | zero =>
      intro q hq
      cases q with
      | nil => simp [bfsAux, szList]
      | cons a rest =>
          have := sz_pos a
          simp [szList] at hq
          omega
  | succ n ih =>
      intro q hq
      cases q with
      | nil => simp [bfsAux, szList]
      | cons a rest =>
          have hsz : szList (rest ++ a.children) ≤ n := by
            have := szList_children a
            rw [szList_append]
            simp [szList] at hq
            omega
          rw [bfsAux]
          have hsza : AppT.sz a = 1 + szList a.children := by
            cases a
            simp [AppT.sz, AppT.children]
          simp only [List.length_cons, ih _ hsz, szList_append, szList]
          omega

theorem bfs_length (t : AppT) : (bfs t).length = AppT.sz t := by
  rw [bfs_eq, bfsAux_length (szList [t]) [t] le_rfl]
  simp [szList]

/-- Queue members appear in the breadth-first output. -/
theorem mem_bfsAux_of_mem : ∀ (n : Nat) (q : List AppT), szList q ≤ n →
    ∀ x ∈ q, x ∈ bfsAux q := by
  intro n
  induction n with
  | zero =>
      intro q hq x hx
      cases q with
      | nil => exact absurd hx (List.not_mem_nil x)
      | cons a rest =>
          have := sz_pos a
          simp [szList] at hq
          omega
  | succ n ih =>
      intro q hq x hx
      cases q with
      | nil => exact absurd hx (List.not_mem_nil x)
      | cons a rest =>
          have hsz : szList (rest ++ a.children) ≤ n := by
            have := szList_children a
            rw [szList_append]
            simp [szList] at hq
            omega
          rw [bfsAux]
          rcases List.mem_cons.mp hx with rfl | hx'
          · exact List.mem_cons_self _ _
          · exact List.mem_cons_of_mem a (ih _ hsz x (List.mem_append_left _ hx'))

/-- The breadth-first output is closed under children. -/
theorem children_mem_bfsAux : ∀ (n : Nat) (q : List AppT), szList q ≤ n →
    ∀ p ∈ bfsAux q, ∀ c ∈ p.children, c ∈ bfsAux q := by
  intro n
  induction n with
  | zero =>
      intro q hq p hp c hc
      cases q with
      | nil =>
          rw [bfsAux] at hp
          exact absurd hp (List.not_mem_nil p)
      | cons a rest =>
          have := sz_pos a
          simp [szList] at hq
          omega
  | succ n ih =>
      intro q hq p hp c hc
      cases q with
      | nil =>
          rw [bfsAux] at hp
          exact absurd hp (List.not_mem_nil p)
      | cons a rest =>
          have hsz : szList (rest ++ a.children) ≤ n := by
            have := szList_children a
            rw [szList_append]
            simp [szList] at hq
            omega
          rw [bfsAux] at hp ⊢
          rcases List.mem_cons.mp hp with rfl | hp'
          · exact List.mem_cons_of_mem p
              (mem_bfsAux_of_mem _ _ hsz c (List.mem_append_right _ hc))
          · exact List.mem_cons_of_mem a (ih _ hsz p hp' c hc)

theorem mem_children_bfs (root p : AppT) (hp : p ∈ bfs root) (c : AppT)
    (hc : c ∈ p.children) : c ∈ bfs root := by
  rw [bfs_eq] at hp ⊢
  exact children_mem_bfsAux (szList [root]) [root] le_rfl p hp c hc

/-- The keys of the child→parent pairs contributed by a list of nodes. -/
def keysOf (L : List AppT) : List Nat :=
  (L.map (fun p => p.children.map AppT.aid)).flatten

mutual
/-- The parent-map keys of a tree's nodes are the ids of everything but
the root. -/
theorem keys_allNodes (t : AppT) :
    List.Perm (keysOf (allNodes t)) ((allNodesList t.children).map AppT.aid) :=
  match t with
  | .node aid pre sc mws ehs rts ds cs => by
      have h1 : keysOf (allNodes (.node aid pre sc mws ehs rts ds cs)) =
          cs.map AppT.aid ++ keysOf (allNodesList cs) := by
        rw [allNodes]
        simp [keysOf, AppT.children]
      rw [h1]
      have h2 := keys_allNodesList cs
      simpa [AppT.children] using h2

/-- Forest version: heads plus keys make up all node ids. -/
theorem keys_allNodesList (l : List AppT) :
    List.Perm (l.map AppT.aid ++ keysOf (allNodesList l)) ((allNodesList l).map AppT.aid) :=
  match l with
  | [] => by simp [allNodesList, keysOf]
  | c :: cs => by
      have hk : keysOf (allNodesList (c :: cs)) =
          keysOf (allNodes c) ++ keysOf (allNodesList cs) := by
        rw [show allNodesList (c :: cs) = allNodes c ++ allNodesList cs from rfl]
        simp [keysOf]
      have ihc := keys_allNodes c
      have ihcs := keys_allNodesList cs
      rw [hk]
      rw [show (c :: cs).map AppT.aid = c.aid :: cs.map AppT.aid from rfl]
      rw [show allNodesList (c :: cs) = allNodes c ++ allNodesList cs from rfl]
      rw [List.map_append]
      rw [show (allNodes c).map AppT.aid =
          c.aid :: (allNodesList c.children).map AppT.aid from by rw [allNodes_eq c]; simp]
      refine List.Perm.cons c.aid ?_
      have hswap : List.Perm
          (cs.map AppT.aid ++ (keysOf (allNodes c) ++ keysOf (allNodesList cs)))
          (keysOf (allNodes c) ++ (cs.map AppT.aid ++ keysOf (allNodesList cs))) := by
        rw [← List.append_assoc, ← List.append_assoc]
        exact List.Perm.append_right _ List.perm_append_comm
      exact hswap.trans (List.Perm.append ihc ihcs)
end

theorem keysOf_perm {L1 L2 : List AppT} (h : List.Perm L1 L2) :
    List.Perm (keysOf L1) (keysOf L2) :=
  (h.map _).flatten

theorem parentPairs_keys (root : AppT) :
    (parentPairs root).map Prod.fst = keysOf (bfs root) := by
  unfold parentPairs keysOf
  suffices h : ∀ L : List AppT,
      ((L.map (fun p => p.children.map (fun c => (c.aid, p)))).flatten).map Prod.fst =
        (L.map (fun p => p.children.map AppT.aid)).flatten from h _
  intro L
  induction L with
  | nil => rfl
  | cons a L ih =>
      simp only [List.map_cons, List.flatten_cons, List.map_append, ih]
      congr 1
      rw [List.map_map]
      rfl

theorem keys_perm_root (root : AppT) :
    List.Perm (root.aid :: (parentPairs root).map Prod.fst) ((bfs root).map AppT.aid) := by
  rw [parentPairs_keys]
  refine ((keysOf_perm (bfs_perm root)).cons root.aid).trans ?_
  refine ((keys_allNodes root).cons root.aid).trans ?_
  have h1 : root.aid :: (allNodesList root.children).map AppT.aid =
      (allNodes root).map AppT.aid := by
    rw [allNodes_eq root]
    simp
  rw [h1]
  exact (List.Perm.map _ (bfs_perm root)).symm

theorem pmGet_mem (pairs : List (Nat × AppT)) (k : Nat) (p : AppT)
    (h : pmGet pairs k = some p) : (k, p) ∈ pairs := by
  unfold pmGet at h
  rcases hf : pairs.reverse.find? (fun pr => pr.1 == k) with _ | pr
  · rw [hf] at h
    cases h
  · rw [hf] at h
    simp only [Option.map] at h
    have hmem : pr ∈ pairs := List.mem_reverse.mp (List.mem_of_find?_eq_some hf)
    have hk : pr.1 = k := by simpa using List.find?_some hf
    obtain ⟨k', p'⟩ := pr
    cases h
    cases hk
    exact hmem

theorem pmGet_eq_of_mem (pairs : List (Nat × AppT))
    (hnd : (pairs.map Prod.fst).Nodup) (k : Nat) (p : AppT)
    (hmem : (k, p) ∈ pairs) : pmGet pairs k = some p := by
  unfold pmGet
  rcases hf : pairs.reverse.find? (fun pr => pr.1 == k) with _ | pr
  · exfalso
    rw [List.find?_eq_none] at hf
    exact hf (k, p) (List.mem_reverse.mpr hmem) (by simp)
  · rw [hf]
    simp only [Option.map]
    have hprm : pr ∈ pairs := List.mem_reverse.mp (List.mem_of_find?_eq_some hf)
    have hk : pr.1 = k := by simpa using List.find?_some hf
    have heq : pr = (k, p) :=
      List.inj_on_of_nodup_map hnd hprm hmem (by rw [hk])
    rw [heq]

theorem pmGet_eq_none (pairs : List (Nat × AppT)) (k : Nat)
    (hk : k ∉ pairs.map Prod.fst) : pmGet pairs k = none := by
  unfold pmGet
  rcases hf : pairs.reverse.find? (fun pr => pr.1 == k) with _ | pr
  · rw [hf]
    rfl
  · exfalso
    have hprm : pr ∈ pairs := List.mem_reverse.mp (List.mem_of_find?_eq_some hf)
    have hkk : pr.1 = k := by simpa using List.find?_some hf
    exact hk (by rw [← hkk]; exact List.mem_map_of_mem Prod.fst hprm)

theorem parentPairs_mem (root : AppT) (k : Nat) (p : AppT) :
    (k, p) ∈ parentPairs root ↔ p ∈ bfs root ∧ ∃ c ∈ p.children, c.aid = k := by
  unfold parentPairs
  rw [List.mem_flatten]
  constructor
  · rintro ⟨L, hL, hmem⟩
    rw [List.mem_map] at hL
    obtain ⟨q, hq, rfl⟩ := hL
    rw [List.mem_map] at hmem
    obtain ⟨c, hc, heq⟩ := hmem
    cases heq
    exact ⟨hq, c, hc, rfl⟩
  · rintro ⟨hp, c, hc, rfl⟩
    exact ⟨p.children.map (fun c => (c.aid, p)), List.mem_map_of_mem _ hp,
      List.mem_map_of_mem _ hc⟩

/-- The ancestor chain, spec-side: `ChainTo a l c` says `l` walks from a
child of `a` down the tree, ending at `c` (with `c = a` for the empty
walk). -/
def ChainTo : AppT → List AppT → AppT → Prop
  | a, [], c => a = c
  | a, b :: rest, c => b ∈ a.children ∧ ChainTo b rest c

theorem chainTo_snoc (l : List AppT) : ∀ (a b c : AppT), ChainTo a (l ++ [b]) c →
    c = b ∧ ∃ p, ChainTo a l p ∧ b ∈ p.children := by
  induction l with
  | nil =>
      intro a b c h
      obtain ⟨hb, hc⟩ := h
      exact ⟨(show b = c from hc).symm, a, rfl, hb⟩
  | cons d rest ih =>
      intro a b c h
      obtain ⟨hd, hrest⟩ := h
      obtain ⟨hcb, p, hch, hbp⟩ := ih d b c hrest
      exact ⟨hcb, p, ⟨hd, hch⟩, hbp⟩

theorem chainTo_mem (l : List AppT) : ∀ (root a c : AppT), a ∈ bfs root →
    ChainTo a l c → c ∈ bfs root := by
  induction l with
  | nil =>
      intro root a c ha h
      have hac : a = c := h
      subst hac
      exact ha
  | cons b rest ih =>
      intro root a c ha h
      obtain ⟨hb, hrest⟩ := h
      exact ih root b c (mem_children_bfs root a ha b hb) hrest

theorem sz_le_szList (cs : List AppT) (b : AppT) (hb : b ∈ cs) :
    AppT.sz b ≤ szList cs := by
  induction cs with
  | nil => exact absurd hb (List.not_mem_nil b)
  | cons c cs' ih =>
      rcases List.mem_cons.mp hb with rfl | hb'
      · simp [szList]
      · have := ih hb'
        simp [szList]
        omega

theorem chainTo_length (l : List AppT) : ∀ (a c : AppT), ChainTo a l c →
    l.length < AppT.sz a := by
  induction l with
  | nil =>
      intro a c _
      exact sz_pos a
  | cons b rest ih =>
      intro a c h
      obtain ⟨hb, hrest⟩ := h
      have h1 := ih b c hrest
      have h2 := sz_le_szList a.children b hb
      have h3 : AppT.sz a = 1 + szList a.children := by
        cases a
        simp [AppT.sz, AppT.children]
      simp only [List.length_cons]
      omega

/-- The parent-map upward walk recovers exactly the ancestor chain,
provided node ids are unique in the tree. -/
theorem walkUpAux_chain (root : AppT) (hN : ((bfs root).map AppT.aid).Nodup) :
    ∀ (l : List AppT) (cur : AppT), ChainTo root l cur →
      ∀ fuel, l.length ≤ fuel →
        walkUpAux (parentPairs root) fuel cur = root :: l := by
  have hN2 : (root.aid :: (parentPairs root).map Prod.fst).Nodup :=
    (keys_perm_root root).nodup_iff.mpr hN
  obtain ⟨hkroot, hknd⟩ := List.nodup_cons.mp hN2
  intro l
  induction l using List.reverseRecOn with
  | nil =>
      intro cur hc fuel _
      have hcur : root = cur := hc
      subst hcur
      cases fuel with
      | zero => rfl
      | succ f =>
          rw [walkUpAux]
          rw [pmGet_eq_none _ _ hkroot]
  | append_singleton l' b ih =>
      intro cur hc fuel hf
      obtain ⟨hcb, p, hcp, hbp⟩ := chainTo_snoc l' root b cur hc
      subst hcb
      rw [List.length_append, List.length_singleton] at hf
      cases fuel with
      | zero => omega
      | succ f =>
          rw [walkUpAux]
          have hpb : p ∈ bfs root := chainTo_mem l' root root p (mem_bfs_self root) hcp
          have hpair : (cur.aid, p) ∈ parentPairs root :=
            (parentPairs_mem root cur.aid p).mpr ⟨hpb, cur, hbp, rfl⟩
          rw [pmGet_eq_of_mem _ hknd _ _ hpair]
          dsimp only
          rw [ih p hcp f (by omega)]
          simp

/-- `getAppAndParents` returns the ancestor chain root-first under unique
ids. -/
theorem getAppAndParents_chain (root cur : AppT) (l : List AppT)
    (hN : ((bfs root).map AppT.aid).Nodup) (hc : ChainTo root l cur) :
    getAppAndParents root cur = root :: l := by
  unfold getAppAndParents
  by_cases hch : root.children.isEmpty = true
  · rw [if_pos hch]
    cases l with
    | nil =>
        have hcur : root = cur := hc
        rw [hcur]
    | cons b rest =>
        exfalso
        obtain ⟨hb, _⟩ := hc
        rw [List.isEmpty_iff] at hch
        rw [hch] at hb
        exact absurd hb (List.not_mem_nil b)
  · rw [if_neg hch]
    apply walkUpAux_chain root hN l cur hc
    rw [bfs_length]
    have h1 := chainTo_length l root cur hc
    omega

/-- Over a tree with unique ids, id-membership in the scoped-false
filter coincides with the node's own `scoped === false` test. -/
theorem memById_scopeFalse (root : AppT) (hN : ((bfs root).map AppT.aid).Nodup)
    (app : AppT) (happ : app ∈ bfs root) :
    memById ((bfs root).filter (fun x => x.scopedQ == some false)) app =
      (app.scopedQ == some false) := by
  by_cases h : app.scopedQ = some false
  · rw [show (app.scopedQ == some false) = true from by simp [h]]
    unfold memById
    rw [List.any_eq_true]
    exact ⟨app, List.mem_filter.mpr ⟨happ, by simp [h]⟩, by simp⟩
  · rw [show (app.scopedQ == some false) = false from by simp [h]]
    unfold memById
    rw [List.any_eq_false]
    intro x hx
    obtain ⟨hxb, hxs⟩ := List.mem_filter.mp hx
    intro hxx
    have hxa : x.aid = app.aid := by simpa using hxx
    have : x = app := List.inj_on_of_nodup_map hN hxb happ hxa
    subst this
    exact h (by simpa using hxs)

/-- C5: for a matched app `cur` reached from the root by the ancestor
chain `root :: l` (`ChainTo`), in a tree with unique node ids:
`getAppAndParents` returns exactly that chain; the apps in scope — whose
middlewares and error handlers `handle()` applies — are the tree's
breadth-first order filtered to the union of the `scoped === false`
nodes and the ancestor chain; hence every `scoped: false` app is in
scope for every matched route, while a `scoped: true`-or-default app is
in scope exactly when it lies on the matched route's own ancestor
branch. -/
theorem c5_scope_visibility (root cur : AppT) (l : List AppT)
    (hN : ((bfs root).map AppT.aid).Nodup)
    (hc : ChainTo root l cur) :
    getAppAndParents root cur = root :: l ∧
    getAppsInScope root cur =
      (bfs root).filter (fun app =>
        (app.scopedQ == some false) || memById (root :: l) app) ∧
    (∀ a ∈ bfs root, a.scopedQ = some false → a ∈ getAppsInScope root cur) ∧
    (∀ a ∈ bfs root, a.scopedQ ≠ some false →
        (a ∈ getAppsInScope root cur ↔ ∃ x ∈ root :: l, x.aid = a.aid)) := by
  have hgap := getAppAndParents_chain root cur l hN hc
  have h2 : getAppsInScope root cur =
      (bfs root).filter (fun app =>
        (app.scopedQ == some false) || memById (root :: l) app) := by
    unfold getAppsInScope
    by_cases hch : root.children.isEmpty = true
    · rw [if_pos hch]
      have hl : l = [] := by
        cases l with
        | nil => rfl
        | cons b rest =>
            exfalso
            obtain ⟨hb, _⟩ := hc
            rw [List.isEmpty_iff] at hch
            rw [hch] at hb
            exact absurd hb (List.not_mem_nil b)
      subst hl
      have hb1 : bfs root = [root] := by
        rw [bfs_eq, bfsAux]
        rw [List.isEmpty_iff] at hch
        rw [hch]
        rw [show ([] : List AppT) ++ ([] : List AppT) = [] from rfl]
        rw [bfsAux]
      rw [hb1]
      have hm : memById [root] root = true := by
        unfold memById
        rw [List.any_eq_true]
        exact ⟨root, List.mem_cons_self _ _, by simp⟩
      simp [List.filter_cons, hm]
    · rw [if_neg hch]
      rw [hgap]
      refine List.filter_congr ?_
      intro x hx
      rw [memById_scopeFalse root hN x hx]
  refine ⟨hgap, h2, ?_, ?_⟩
  · intro a ha hsf
    rw [h2]
    refine List.mem_filter.mpr ⟨ha, ?_⟩
    simp [hsf]
  · intro a ha hnsf
    rw [h2, List.mem_filter]
    constructor
    · rintro ⟨_, hpred⟩
      rw [Bool.or_eq_true] at hpred
      rcases hpred with hsf | hmem
      · exact absurd (by simpa using hsf) hnsf
      · unfold memById at hmem
        rw [List.any_eq_true] at hmem
        obtain ⟨x, hx, hxa⟩ := hmem
        exact ⟨x, hx, by simpa using hxa⟩
    · rintro ⟨x, hx, hxa⟩
      refine ⟨ha, ?_⟩
      rw [Bool.or_eq_true]
      right
      unfold memById
      rw [List.any_eq_true]
      exact ⟨x, hx, by simp [hxa]⟩

/-- Leaf of the C5 witness tree. -/
def c5leaf : AppT := .node 3 [] none [] [] [] (.obj []) []

/-- Middle branch node (default scoping) of the C5 witness tree. -/
def c5branch : AppT := .node 2 [] none [] [] [] (.obj []) [c5leaf]

/-- `scoped: false` sub-application of the C5 witness tree, outside the
matched branch. -/
def c5sf : AppT := .node 1 [] (some false) [] [] [] (.obj []) []

/-- Root of the C5 witness tree. -/
def c5root : AppT := .node 0 [] none [] [] [] (.obj []) [c5sf, c5branch]

/-- Witness for C5 at a concrete tree: a route matched on the leaf of
the default-scoped branch pulls in the ancestor chain and the
`scoped: false` app elsewhere in the tree, and nothing else. -/
theorem c5_witness :
    getAppAndParents c5root c5leaf = [c5root, c5branch, c5leaf] ∧
    getAppsInScope c5root c5leaf =
      (bfs c5root).filter (fun app =>
        (app.scopedQ == some false) || memById [c5root, c5branch, c5leaf] app) ∧
    (∀ a ∈ bfs c5root, a.scopedQ = some false → a ∈ getAppsInScope c5root c5leaf) ∧
    (∀ a ∈ bfs c5root, a.scopedQ ≠ some false →
        (a ∈ getAppsInScope c5root c5leaf ↔
          ∃ x ∈ [c5root, c5branch, c5leaf], x.aid = a.aid)) := by
  refine c5_scope_visibility c5root c5leaf [c5branch, c5leaf] (by decide) ?_
  refine ⟨?_, ?_, rfl⟩
  · rw [show c5root.children = [c5sf, c5branch] from rfl]
    exact List.mem_cons_of_mem _ (List.mem_cons_self _ _)
  · rw [show c5branch.children = [c5leaf] from rfl]
    exact List.mem_cons_self _ _

/-- A runtime value as stored in the object heap: primitives inline, and
objects/arrays as references to heap cells. -/
inductive HVal where
  | undef
  | null
  | bool (b : Bool)
  | num (n : Int)
  | str (s : String)
  | urlp (ps : List (String × String))
  | ref (l : Nat)
deriving DecidableEq

/-- A heap cell: an object's field table or an array's item list. -/
inductive Cell where
  | objC (fields : List (String × HVal))
  | arrC (items : List HVal)
deriving DecidableEq

/-- The object heap: cells indexed by position; allocation appends. -/
abbrev Heap := List Cell

mutual
/-- Size measure of a `JVal` (drives the read-back fuel). -/
def szJ : JVal → Nat
  | .arr vs => 1 + szListJ vs
  | .obj fs => 1 + szFieldsJ fs
  | _ => 1

def szListJ : List JVal → Nat
  | [] => 1
  | v :: vs => 1 + szJ v + szListJ vs

def szFieldsJ : List (String × JVal) → Nat
  | [] => 1
  | (_, v) :: fs => 1 + szJ v + szFieldsJ fs
end

mutual
/-- Modelled from the spec: lodash `cloneDeep` materializes the value of
its argument into freshly allocated cells (a deep copy sharing no cell
with any existing structure); primitives are copied inline. -/
def storeJ : JVal → Heap → HVal × Heap
  | .undef, h => (.undef, h)
  | .null, h => (.null, h)
  | .bool b, h => (.bool b, h)
  | .num n, h => (.num n, h)
  | .str s, h => (.str s, h)
  | .urlParams ps, h => (.urlp ps, h)
  | .arr vs, h =>
      (HVal.ref (storeList vs h).2.length, (storeList vs h).2 ++ [.arrC (storeList vs h).1])
  | .obj fs, h =>
      (HVal.ref (storeFields fs h).2.length, (storeFields fs h).2 ++ [.objC (storeFields fs h).1])

/-- Store a list of values left to right. -/
def storeList : List JVal → Heap → List HVal × Heap
  | [], h => ([], h)
  | v :: vs, h =>
      ((storeJ v h).1 :: (storeList vs (storeJ v h).2).1, (storeList vs (storeJ v h).2).2)

/-- Store an object's fields left to right. -/
def storeFields : List (String × JVal) → Heap → List (String × HVal) × Heap
  | [], h => ([], h)
  | (k, v) :: fs, h =>
      ((k, (storeJ v h).1) :: (storeFields fs (storeJ v h).2).1,
        (storeFields fs (storeJ v h).2).2)
end

mutual
/-- Read a stored value back from the heap (fuelled; at fuel at least
the value's size the read-back of a fresh copy succeeds). -/
def readJ : Nat → Heap → HVal → Option JVal
  | 0, _, _ => none
  | _ + 1, _, .undef => some .undef
  | _ + 1, _, .null => some .null
  | _ + 1, _, .bool b => some (.bool b)
  | _ + 1, _, .num n => some (.num n)
  | _ + 1, _, .str s => some (.str s)
  | _ + 1, _, .urlp ps => some (.urlParams ps)
  | fuel + 1, h, .ref l =>
      match h.get? l with
      | none => none
      | some (.objC fs) =>
          match readFields fuel h fs with
          | none => none
          | some fs' => some (.obj fs')
      | some (.arrC vs) =>
          match readList fuel h vs with
          | none => none
          | some vs' => some (.arr vs')
termination_by structural fuel => fuel

/-- Read a list of stored values. -/
def readList : Nat → Heap → List HVal → Option (List JVal)
  | 0, _, _ => none
  | _ + 1, _, [] => some []
  | fuel + 1, h, hv :: hvs =>
      match readJ fuel h hv with
      | none => none
      | some v =>
          match readList fuel h hvs with
          | none => none
          | some vs => some (v :: vs)
termination_by structural fuel => fuel

/-- Read an object's stored fields. -/
def readFields : Nat → Heap → List (String × HVal) → Option (List (String × JVal))
  | 0, _, _ => none
  | _ + 1, _, [] => some []
  | fuel + 1, h, (k, hv) :: rest =>
      match readJ fuel h hv with
      | none => none
      | some v =>
          match readFields fuel h rest with
          | none => none
          | some fs => some ((k, v) :: fs)
termination_by structural fuel => fuel
end

/-- A stored value references only cells at or above `base`. -/
def HVal.closed (base : Nat) : HVal → Prop
  | .ref l => base ≤ l
  | _ => True

/-- A cell references only cells at or above `base`. -/
def cellClosed (base : Nat) : Cell → Prop
  | .objC fs => ∀ p ∈ fs, HVal.closed base p.2
  | .arrC vs => ∀ hv ∈ vs, HVal.closed base hv

/-- Every cell of `h` at or above `base` references only cells at or
above `base` (the region is self-contained). -/
def RegionOK (h : Heap) (base : Nat) : Prop :=
  ∀ l c, base ≤ l → h.get? l = some c → cellClosed base c

theorem closed_zero (hv : HVal) : HVal.closed 0 hv := by
  cases hv <;> simp [HVal.closed]

theorem cellClosed_zero (c : Cell) : cellClosed 0 c := by
  cases c <;> simp [cellClosed, closed_zero]

theorem regionOK_zero (h : Heap) : RegionOK h 0 :=
  fun _ c _ _ => cellClosed_zero c

theorem closed_mono {b b' : Nat} (hbb : b ≤ b') (hv : HVal)
    (h : HVal.closed b' hv) : HVal.closed b hv := by
  cases hv <;> simp [HVal.closed] at h ⊢ <;> omega

theorem cellClosed_mono {b b' : Nat} (hbb : b ≤ b') (c : Cell)
    (h : cellClosed b' c) : cellClosed b c := by
  cases c with
  | objC fs =>
      intro p hp
      exact closed_mono hbb _ (h p hp)
  | arrC vs =>
      intro hv hp
      exact closed_mono hbb _ (h hv hp)

mutual
/-- The deep copy only allocates: the existing heap is a prefix of the
result (no existing cell is read from or written to). -/
theorem storeJ_extends (v : JVal) (h : Heap) : h <+: (storeJ v h).2 :=
  match v with
  | .undef => List.prefix_rfl
  | .null => List.prefix_rfl
  | .bool _ => List.prefix_rfl
  | .num _ => List.prefix_rfl
  | .str _ => List.prefix_rfl
  | .urlParams _ => List.prefix_rfl
  | .arr vs =>
      (storeList_extends vs h).trans ⟨[.arrC (storeList vs h).1], rfl⟩
  | .obj fs =>
      (storeFields_extends fs h).trans ⟨[.objC (storeFields fs h).1], rfl⟩

theorem storeList_extends (vs : List JVal) (h : Heap) : h <+: (storeList vs h).2 :=
  match vs with
  | [] => List.prefix_rfl
  | v :: vs => (storeJ_extends v h).trans (storeList_extends vs (storeJ v h).2)

theorem storeFields_extends (fs : List (String × JVal)) (h : Heap) :
    h <+: (storeFields fs h).2 :=
  match fs with
  | [] => List.prefix_rfl
  | (_, v) :: fs => (storeJ_extends v h).trans (storeFields_extends fs (storeJ v h).2)
end

mutual
/-- Frame property of read-back: a successful read of a value whose
references stay in the self-contained region at or above `base` is
unchanged in any heap agreeing with the original on that region. -/
theorem readJ_frame : ∀ (fuel : Nat) (h h' : Heap) (base : Nat) (hv : HVal) (v : JVal),
    HVal.closed base hv → RegionOK h base →
    (∀ l, base ≤ l → l < h.length → h'.get? l = h.get? l) →
    readJ fuel h hv = some v → readJ fuel h' hv = some v
  | 0, h, h', base, hv, v => by
      intro _ _ _ hr
      rw [readJ] at hr
      cases hr
  | fuel + 1, h, h', base, hv, v => by
      intro hc hreg hagree hr
      cases hv with
      | undef => rw [readJ] at hr ⊢; exact hr
      | null => rw [readJ] at hr ⊢; exact hr
      | bool b => rw [readJ] at hr ⊢; exact hr
      | num n => rw [readJ] at hr ⊢; exact hr
      | str s => rw [readJ] at hr ⊢; exact hr
      | urlp ps => rw [readJ] at hr ⊢; exact hr
      | ref l =>
          rw [readJ] at hr ⊢
          rcases hcell : h.get? l with _ | c
          · rw [hcell] at hr
            cases hr
          · rw [hcell] at hr
            have hl : l < h.length := by
              by_contra hnl
              rw [List.get?_eq_none.mpr (by omega)] at hcell
              cases hcell
            have hbase : base ≤ l := hc
            rw [hagree l hbase hl, hcell]
            have hcc : cellClosed base c := hreg l c hbase hcell
            cases c with
            | objC fs =>
                dsimp only at hr ⊢
                rcases hrf : readFields fuel h fs with _ | fs'
                · rw [hrf] at hr
                  cases hr
                · rw [hrf] at hr
                  rw [readFields_frame fuel h h' base fs fs' hcc hreg hagree hrf]
                  exact hr
            | arrC vs =>
                dsimp only at hr ⊢
                rcases hrf : readList fuel h vs with _ | vs'
                · rw [hrf] at hr
                  cases hr
                · rw [hrf] at hr
                  rw [readList_frame fuel h h' base vs vs' hcc hreg hagree hrf]
                  exact hr
termination_by structural fuel => fuel

/-- Frame property for lists of stored values. -/
theorem readList_frame : ∀ (fuel : Nat) (h h' : Heap) (base : Nat)
    (hvs : List HVal) (vs : List JVal),
    (∀ hv ∈ hvs, HVal.closed base hv) → RegionOK h base →
    (∀ l, base ≤ l → l < h.length → h'.get? l = h.get? l) →
    readList fuel h hvs = some vs → readList fuel h' hvs = some vs
  | 0, h, h', base, hvs, vs => by
      intro _ _ _ hr
      rw [readList] at hr
      cases hr
  | fuel + 1, h, h', base, hvs, vs => by
      intro hc hreg hagree hr
      cases hvs with
      | nil => rw [readList] at hr ⊢; exact hr
      | cons hv hvs =>
          rw [readList] at hr ⊢
          rcases hrv : readJ fuel h hv with _ | v0
          · rw [hrv] at hr
            cases hr
          · rw [hrv] at hr
            rw [readJ_frame fuel h h' base hv v0 (hc hv (List.mem_cons_self _ _)) hreg hagree hrv]
            rcases hrs : readList fuel h hvs with _ | vs0
            · rw [hrs] at hr
              cases hr
            · rw [hrs] at hr
              rw [readList_frame fuel h h' base hvs vs0
                (fun x hx => hc x (List.mem_cons_of_mem _ hx)) hreg hagree hrs]
              exact hr
termination_by structural fuel => fuel

/-- Frame property for stored field lists. -/
theorem readFields_frame : ∀ (fuel : Nat) (h h' : Heap) (base : Nat)
    (hfs : List (String × HVal)) (fs : List (String × JVal)),
    (∀ p ∈ hfs, HVal.closed base p.2) → RegionOK h base →
    (∀ l, base ≤ l → l < h.length → h'.get? l = h.get? l) →
    readFields fuel h hfs = some fs → readFields fuel h' hfs = some fs
  | 0, h, h', base, hfs, fs => by
      intro _ _ _ hr
      rw [readFields] at hr
      cases hr
  | fuel + 1, h, h', base, hfs, fs => by
      intro hc hreg hagree hr
      cases hfs with
      | nil => rw [readFields] at hr ⊢; exact hr
      | cons p rest =>
          obtain ⟨k, hv⟩ := p
          rw [readFields] at hr ⊢
          rcases hrv : readJ fuel h hv with _ | v0
          · rw [hrv] at hr
            cases hr
          · rw [hrv] at hr
            rw [readJ_frame fuel h h' base hv v0
              (hc (k, hv) (List.mem_cons_self _ _)) hreg hagree hrv]
            rcases hrs : readFields fuel h rest with _ | fs0
            · rw [hrs] at hr
              cases hr
            · rw [hrs] at hr
              rw [readFields_frame fuel h h' base rest fs0
                (fun x hx => hc x (List.mem_cons_of_mem _ hx)) hreg hagree hrs]
              exact hr
termination_by structural fuel => fuel
end

theorem szJ_pos (v : JVal) : 1 ≤ szJ v := by
  cases v <;> simp [szJ]

theorem szListJ_pos (vs : List JVal) : 1 ≤ szListJ vs := by
  cases vs with
  | nil => simp [szListJ]
  | cons v vs =>
      simp [szListJ]
      omega

theorem szFieldsJ_pos (fs : List (String × JVal)) : 1 ≤ szFieldsJ fs := by
  cases fs with
  | nil => simp [szFieldsJ]
  | cons p fs =>
      obtain ⟨k, v⟩ := p
      simp [szFieldsJ]
      omega

mutual
/-- The deep copy is value-faithful: reading the fresh copy back yields
the original value. -/
theorem storeJ_read (v : JVal) : ∀ (h : Heap) (fuel : Nat), szJ v ≤ fuel →
    readJ fuel (storeJ v h).2 (storeJ v h).1 = some v
  | h, fuel, hsz => by
      cases v with
      | undef =>
          cases fuel with
          | zero => simp [szJ] at hsz
          | succ f => rw [show storeJ .undef h = (.undef, h) from rfl, readJ]
      | null =>
          cases fuel with
          | zero => simp [szJ] at hsz
          | succ f => rw [show storeJ .null h = (.null, h) from rfl, readJ]
      | bool b =>
          cases fuel with
          | zero => simp [szJ] at hsz
          | succ f => rw [show storeJ (.bool b) h = (.bool b, h) from rfl, readJ]
      | num n =>
          cases fuel with
          | zero => simp [szJ] at hsz
          | succ f => rw [show storeJ (.num n) h = (.num n, h) from rfl, readJ]
      | str s =>
          cases fuel with
          | zero => simp [szJ] at hsz
          | succ f => rw [show storeJ (.str s) h = (.str s, h) from rfl, readJ]
      | urlParams ps =>
          cases fuel with
          | zero => simp [szJ] at hsz
          | succ f => rw [show storeJ (.urlParams ps) h = (.urlp ps, h) from rfl, readJ]
      | obj fs =>
          cases fuel with
          | zero =>
              have := szJ_pos (.obj fs)
              omega
          | succ f =>
              have hf : szFieldsJ fs ≤ f := by
                simp [szJ] at hsz
                omega
              show readJ (f + 1) ((storeFields fs h).2 ++ [.objC (storeFields fs h).1])
                  (.ref (storeFields fs h).2.length) = some (.obj fs)
              rw [readJ, List.get?_concat_length]
              dsimp only
              rw [readFields_frame f (storeFields fs h).2
                  ((storeFields fs h).2 ++ [.objC (storeFields fs h).1]) 0
                  (storeFields fs h).1 fs
                  (fun p _ => closed_zero p.2) (regionOK_zero _)
                  (fun l _ hl => List.get?_append hl)
                  (storeFields_read fs h f hf)]
      | arr vs =>
          cases fuel with
          | zero =>
              have := szJ_pos (.arr vs)
              omega
          | succ f =>
              have hf : szListJ vs ≤ f := by
                simp [szJ] at hsz
                omega
              show readJ (f + 1) ((storeList vs h).2 ++ [.arrC (storeList vs h).1])
                  (.ref (storeList vs h).2.length) = some (.arr vs)
              rw [readJ, List.get?_concat_length]
              dsimp only
              rw [readList_frame f (storeList vs h).2
                  ((storeList vs h).2 ++ [.arrC (storeList vs h).1]) 0
                  (storeList vs h).1 vs
                  (fun hv _ => closed_zero hv) (regionOK_zero _)
                  (fun l _ hl => List.get?_append hl)
                  (storeList_read vs h f hf)]

theorem storeList_read (vs : List JVal) : ∀ (h : Heap) (fuel : Nat), szListJ vs ≤ fuel →
    readList fuel (storeList vs h).2 (storeList vs h).1 = some vs
  | h, fuel, hsz => by
      cases vs with
      | nil =>
          cases fuel with
          | zero => simp [szListJ] at hsz
          | succ f => rw [show storeList [] h = (([] : List HVal), h) from rfl, readList]
      | cons v vs =>
          cases fuel with
          | zero =>
              have := szListJ_pos (v :: vs)
              omega
          | succ f =>
              have h1 : szJ v ≤ f ∧ szListJ vs ≤ f := by
                have := szJ_pos v
                have := szListJ_pos vs
                simp [szListJ] at hsz
                omega
              show readList (f + 1) (storeList vs (storeJ v h).2).2
                  ((storeJ v h).1 :: (storeList vs (storeJ v h).2).1) = some (v :: vs)
              rw [readList]
              obtain ⟨ext, hext⟩ := storeList_extends vs (storeJ v h).2
              have hrv : readJ f (storeList vs (storeJ v h).2).2 (storeJ v h).1 = some v := by
                rw [← hext]
                exact readJ_frame f (storeJ v h).2 _ 0 _ v (closed_zero _) (regionOK_zero _)
                  (fun l _ hl => List.get?_append hl) (storeJ_read v h f h1.1)
              rw [hrv]
              dsimp only
              rw [storeList_read vs (storeJ v h).2 f h1.2]

theorem storeFields_read (fs : List (String × JVal)) : ∀ (h : Heap) (fuel : Nat),
    szFieldsJ fs ≤ fuel →
    readFields fuel (storeFields fs h).2 (storeFields fs h).1 = some fs
  | h, fuel, hsz => by
      cases fs with
      | nil =>
          cases fuel with
          | zero => simp [szFieldsJ] at hsz
          | succ f =>
              rw [show storeFields [] h = (([] : List (String × HVal)), h) from rfl, readFields]
      | cons p fs =>
          obtain ⟨k, v⟩ := p
          cases fuel with
          | zero =>
              have := szFieldsJ_pos ((k, v) :: fs)
              omega
          | succ f =>
              have h1 : szJ v ≤ f ∧ szFieldsJ fs ≤ f := by
                have := szJ_pos v
                have := szFieldsJ_pos fs
                simp [szFieldsJ] at hsz
                omega
              show readFields (f + 1) (storeFields fs (storeJ v h).2).2
                  ((k, (storeJ v h).1) :: (storeFields fs (storeJ v h).2).1) = some ((k, v) :: fs)
              rw [readFields]
              obtain ⟨ext, hext⟩ := storeFields_extends fs (storeJ v h).2
              have hrv : readJ f (storeFields fs (storeJ v h).2).2 (storeJ v h).1 = some v := by
                rw [← hext]
                exact readJ_frame f (storeJ v h).2 _ 0 _ v (closed_zero _) (regionOK_zero _)
                  (fun l _ hl => List.get?_append hl) (storeJ_read v h f h1.1)
              rw [hrv]
              dsimp only
              rw [storeFields_read fs (storeJ v h).2 f h1.2]
end

mutual
/-- The deep copy is region-fresh: the copied value references only
newly allocated cells, and those cells reference only newly allocated
cells. -/
theorem storeJ_closed (v : JVal) : ∀ h : Heap,
    HVal.closed h.length (storeJ v h).1 ∧
    (∀ l c, h.length ≤ l → (storeJ v h).2.get? l = some c → cellClosed h.length c)
  | h => by
      cases v with
      | undef =>
          refine ⟨trivial, ?_⟩
          intro l c hl hc
          have hc' : h.get? l = some c := hc
          rw [List.get?_eq_none.mpr hl] at hc'
          cases hc'
      | null =>
          refine ⟨trivial, ?_⟩
          intro l c hl hc
          have hc' : h.get? l = some c := hc
          rw [List.get?_eq_none.mpr hl] at hc'
          cases hc'
      | bool b =>
          refine ⟨trivial, ?_⟩
          intro l c hl hc
          have hc' : h.get? l = some c := hc
          rw [List.get?_eq_none.mpr hl] at hc'
          cases hc'
      | num n =>
          refine ⟨trivial, ?_⟩
          intro l c hl hc
          have hc' : h.get? l = some c := hc
          rw [List.get?_eq_none.mpr hl] at hc'
          cases hc'
      | str s =>
          refine ⟨trivial, ?_⟩
          intro l c hl hc
          have hc' : h.get? l = some c := hc
          rw [List.get?_eq_none.mpr hl] at hc'
          cases hc'
      | urlParams ps =>
          refine ⟨trivial, ?_⟩
          intro l c hl hc
          have hc' : h.get? l = some c := hc
          rw [List.get?_eq_none.mpr hl] at hc'
          cases hc'
      | obj fs =>
          have hfc := storeFields_closed fs h
          constructor
          · exact (storeFields_extends fs h).length_le
          · intro l c hl hc
            have hc' : ((storeFields fs h).2 ++ [Cell.objC (storeFields fs h).1]).get? l =
                some c := hc
            by_cases hlt : l < (storeFields fs h).2.length
            · rw [List.get?_append hlt] at hc'
              exact hfc.2 l c hl hc'
            · by_cases heq : l = (storeFields fs h).2.length
              · subst heq
                rw [List.get?_concat_length] at hc'
                cases hc'
                intro p hp
                exact hfc.1 p hp
              · exfalso
                rw [List.get?_eq_none.mpr (by simp; omega)] at hc'
                cases hc'
      | arr vs =>
          have hfc := storeList_closed vs h
          constructor
          · exact (storeList_extends vs h).length_le
          · intro l c hl hc
            have hc' : ((storeList vs h).2 ++ [Cell.arrC (storeList vs h).1]).get? l =
                some c := hc
            by_cases hlt : l < (storeList vs h).2.length
            · rw [List.get?_append hlt] at hc'
              exact hfc.2 l c hl hc'
            · by_cases heq : l = (storeList vs h).2.length
              · subst heq
                rw [List.get?_concat_length] at hc'
                cases hc'
                intro hv hp
                exact hfc.1 hv hp
              · exfalso
                rw [List.get?_eq_none.mpr (by simp; omega)] at hc'
                cases hc'

theorem storeList_closed (vs : List JVal) : ∀ h : Heap,
    (∀ hv ∈ (storeList vs h).1, HVal.closed h.length hv) ∧
    (∀ l c, h.length ≤ l → (storeList vs h).2.get? l = some c → cellClosed h.length c)
  | h => by
      cases vs with
      | nil =>
          constructor
          · intro hv hmem
            exact absurd hmem (List.not_mem_nil hv)
          · intro l c hl hc
            have hc' : h.get? l = some c := hc
            rw [List.get?_eq_none.mpr hl] at hc'
            cases hc'
      | cons v vs =>
          have hv := storeJ_closed v h
          have hf := storeList_closed vs (storeJ v h).2
          have hlen : h.length ≤ (storeJ v h).2.length := (storeJ_extends v h).length_le
          constructor
          · intro hv0 hmem
            have hmem' : hv0 ∈ (storeJ v h).1 :: (storeList vs (storeJ v h).2).1 := hmem
            rcases List.mem_cons.mp hmem' with rfl | hmem2
            · exact hv.1
            · exact closed_mono hlen _ (hf.1 hv0 hmem2)
          · intro l c hl hc
            have hc' : (storeList vs (storeJ v h).2).2.get? l = some c := hc
            by_cases hlt : l < (storeJ v h).2.length
            · obtain ⟨ext, hext⟩ := storeList_extends vs (storeJ v h).2
              rw [← hext, List.get?_append hlt] at hc'
              exact hv.2 l c hl hc'
            · exact cellClosed_mono hlen _ (hf.2 l c (by omega) hc')

theorem storeFields_closed (fs : List (String × JVal)) : ∀ h : Heap,
    (∀ p ∈ (storeFields fs h).1, HVal.closed h.length p.2) ∧
    (∀ l c, h.length ≤ l → (storeFields fs h).2.get? l = some c → cellClosed h.length c)
  | h => by
      cases fs with
      | nil =>
          constructor
          · intro p hmem
            exact absurd hmem (List.not_mem_nil p)
          · intro l c hl hc
            have hc' : h.get? l = some c := hc
            rw [List.get?_eq_none.mpr hl] at hc'
            cases hc'
      | cons p fs =>
          obtain ⟨k, v⟩ := p
          have hv := storeJ_closed v h
          have hf := storeFields_closed fs (storeJ v h).2
          have hlen : h.length ≤ (storeJ v h).2.length := (storeJ_extends v h).length_le
          constructor
          · intro p0 hmem
            have hmem' : p0 ∈ (k, (storeJ v h).1) :: (storeFields fs (storeJ v h).2).1 := hmem
            rcases List.mem_cons.mp hmem' with rfl | hmem2
            · exact hv.1
            · exact closed_mono hlen _ (hf.1 p0 hmem2)
          · intro l c hl hc
            have hc' : (storeFields fs (storeJ v h).2).2.get? l = some c := hc
            by_cases hlt : l < (storeJ v h).2.length
            · obtain ⟨ext, hext⟩ := storeFields_extends fs (storeJ v h).2
              rw [← hext, List.get?_append hlt] at hc'
              exact hv.2 l c hl hc'
            · exact cellClosed_mono hlen _ (hf.2 l c (by omega) hc')
end

/-- C3: when `handle()` is called without an explicit `state` option, the
context's state is `cloneDeep(defaultState)`: (i) the code picks the
matched app's `defaultState` as the value to clone; over the heap model
of the copy, (ii) each request's clone reads back exactly as
`defaultState`; (iii) cloning only allocates — every pre-existing cell,
the `defaultState` structure's included, is untouched (heap-prefix), and
`defaultState` still reads back unchanged after any number of clones;
(iv) whatever later requests allocate or mutate beyond request 1's
snapshot, request 1's state and `defaultState` read back unchanged; and
(v) mutations confined to cells older than request 2's snapshot — all of
request 1's state included — never change request 2's state: the two
requests' states live in disjoint fresh regions and never observe each
other's mutations. -/
theorem c3_state_deep_copy (ds : JVal) (h0 : Heap) (hv0 : HVal) (fuel : Nat)
    (hsz : szJ ds ≤ fuel)
    (hread0 : readJ fuel h0 hv0 = some ds) :
    (∀ (root : AppT) (req : Req),
        (handleCfg root req none).1.baseCtx.stateV =
          (matchRoute root req.method req.pathFull).app.defaultState) ∧
    readJ fuel (storeJ ds h0).2 (storeJ ds h0).1 = some ds ∧
    readJ fuel (storeJ ds (storeJ ds h0).2).2 (storeJ ds (storeJ ds h0).2).1 = some ds ∧
    h0 <+: (storeJ ds h0).2 ∧ (storeJ ds h0).2 <+: (storeJ ds (storeJ ds h0).2).2 ∧
    readJ fuel (storeJ ds (storeJ ds h0).2).2 hv0 = some ds ∧
    (∀ h' : Heap,
        (∀ l, l < (storeJ ds h0).2.length → h'.get? l = (storeJ ds h0).2.get? l) →
        readJ fuel h' (storeJ ds h0).1 = some ds ∧ readJ fuel h' hv0 = some ds) ∧
    (∀ h' : Heap,
        (∀ l, (storeJ ds h0).2.length ≤ l → l < (storeJ ds (storeJ ds h0).2).2.length →
          h'.get? l = (storeJ ds (storeJ ds h0).2).2.get? l) →
        readJ fuel h' (storeJ ds (storeJ ds h0).2).1 = some ds) := by
  have hp1 := storeJ_extends ds h0
  have hp2 := storeJ_extends ds (storeJ ds h0).2
  have hv0P2 : readJ fuel (storeJ ds h0).2 hv0 = some ds := by
    obtain ⟨ext, hext⟩ := hp1
    rw [← hext]
    exact readJ_frame fuel h0 _ 0 hv0 ds (closed_zero _) (regionOK_zero _)
      (fun l _ hl => List.get?_append hl) hread0
  refine ⟨fun root req => rfl,
          storeJ_read ds h0 fuel hsz,
          storeJ_read ds (storeJ ds h0).2 fuel hsz,
          hp1, hp2, ?_, ?_, ?_⟩
  · obtain ⟨ext, hext⟩ := hp2
    rw [← hext]
    exact readJ_frame fuel (storeJ ds h0).2 _ 0 hv0 ds (closed_zero _) (regionOK_zero _)
      (fun l _ hl => List.get?_append hl) hv0P2
  · intro h' hagr
    constructor
    · exact readJ_frame fuel (storeJ ds h0).2 h' 0 _ ds (closed_zero _) (regionOK_zero _)
        (fun l _ hl => hagr l hl) (storeJ_read ds h0 fuel hsz)
    · exact readJ_frame fuel (storeJ ds h0).2 h' 0 hv0 ds (closed_zero _) (regionOK_zero _)
        (fun l _ hl => hagr l hl) hv0P2
  · intro h' hagr
    exact readJ_frame fuel (storeJ ds (storeJ ds h0).2).2 h' (storeJ ds h0).2.length _ ds
      (storeJ_closed ds (storeJ ds h0).2).1
      (fun l c hl hc => (storeJ_closed ds (storeJ ds h0).2).2 l c hl hc)
      (fun l hbl hl => hagr l hbl hl)
      (storeJ_read ds (storeJ ds h0).2 fuel hsz)

/-- Default state used by the C3 witness (a nested object, so the deep
copy allocates several cells). -/
def c3state : JVal := .obj [("count", .num 0), ("tags", .arr [.str "a"])]

/-- The heap after storing the default state itself (its live structure
before any request). -/
def c3heap0 : Heap := (storeJ c3state []).2

/-- The stored default state's root value. -/
def c3hv0 : HVal := (storeJ c3state []).1

/-- Witness for C3 at a concrete nested default state: both request
clones read back as the default state, cloning is allocation-only, and
the isolation clauses hold for the concrete heaps. -/
theorem c3_witness :
    (∀ (root : AppT) (req : Req),
        (handleCfg root req none).1.baseCtx.stateV =
          (matchRoute root req.method req.pathFull).app.defaultState) ∧
    readJ 20 (storeJ c3state c3heap0).2 (storeJ c3state c3heap0).1 = some c3state ∧
    readJ 20 (storeJ c3state (storeJ c3state c3heap0).2).2
      (storeJ c3state (storeJ c3state c3heap0).2).1 = some c3state ∧
    c3heap0 <+: (storeJ c3state c3heap0).2 ∧
    (storeJ c3state c3heap0).2 <+: (storeJ c3state (storeJ c3state c3heap0).2).2 ∧
    readJ 20 (storeJ c3state (storeJ c3state c3heap0).2).2 c3hv0 = some c3state ∧
    (∀ h' : Heap,
        (∀ l, l < (storeJ c3state c3heap0).2.length →
          h'.get? l = (storeJ c3state c3heap0).2.get? l) →
        readJ 20 h' (storeJ c3state c3heap0).1 = some c3state ∧
        readJ 20 h' c3hv0 = some c3state) ∧
    (∀ h' : Heap,
        (∀ l, (storeJ c3state c3heap0).2.length ≤ l →
          l < (storeJ c3state (storeJ c3state c3heap0).2).2.length →
          h'.get? l = (storeJ c3state (storeJ c3state c3heap0).2).2.get? l) →
        readJ 20 h' (storeJ c3state (storeJ c3state c3heap0).2).1 = some c3state) :=
  c3_state_deep_copy c3state c3heap0 c3hv0 20 (by decide) (by rfl)

end Spiceflow
